import Mathlib

/-!
Verification development for the `ldb-access` tools
(`dump_leveldb_to_json.py`, `rebuild_leveldb_from_json.py`).

Shallow embedding conventions:
* Python byte strings are `List Nat` with every element `< 256`.
* Python `str` values are `List Nat` of Unicode code points (`Str`); the model
  is restricted to valid scalar values (no lone surrogates), which is the
  domain on which Python's strict UTF-8 codec is total.
* JSON-compatible Python values are `JVal`.  Numbers are modelled as integers
  only: floating-point literals (and the `NaN`/`Infinity` extensions of
  Python's `json` module) are outside the model, so the embedded JSON parser
  answers `none` where Python would produce a float.
* Python dicts are association lists without duplicate keys; `pyLookup` is
  `dict.get` and `pyInsert` is `d[k] = v` (replace in place, else append),
  matching CPython's insertion-order semantics.
* Fallible Python code (raised exceptions) is modelled with `Option`;
  potentially non-terminating recursion is modelled with an explicit fuel
  parameter where `none` means the fuel ran out.
-/

set_option maxRecDepth 8000

/-- Unicode code points / bytes are plain naturals. -/
abbrev Byte := Nat

/-- A Python byte string: a list of byte values (each `< 256`). -/
abbrev Bytes := List Nat

/-- A Python `str`: a list of Unicode code points. -/
abbrev Str := List Nat

/-- Convert a Lean string literal into the code-point model of a Python str. -/
def pyStr (s : String) : Str := s.data.map Char.toNat

/-- All elements are genuine byte values. -/
def isBytes (b : Bytes) : Prop := ∀ x ∈ b, x < 256

instance : DecidablePred isBytes := fun b =>
  inferInstanceAs (Decidable (∀ x ∈ b, x < 256))

/-- A valid Unicode scalar value (what a Lean `Char`, and the domain of
Python's strict UTF-8 codec, can hold): below the surrogate range or between
it and `0x110000`. -/
def ValidCp (c : Nat) : Prop := c < 0xD800 ∨ (0xE000 ≤ c ∧ c < 0x110000)

instance : DecidablePred ValidCp := fun c =>
  inferInstanceAs (Decidable (c < 0xD800 ∨ (0xE000 ≤ c ∧ c < 0x110000)))

/-- Every code point of the string is a valid scalar value. -/
def WfStr (s : Str) : Prop := ∀ c ∈ s, ValidCp c

instance : DecidablePred WfStr := fun s =>
  inferInstanceAs (Decidable (∀ c ∈ s, ValidCp c))

/-- ASCII whitespace, the approximation of Python's `str.strip()` character
class used by `_safe_name` / id normalisation (the sources only ever strip
ASCII data). -/
def isSpaceA (c : Nat) : Bool := c = 32 || c = 9 || c = 10 || c = 13 || c = 11 || c = 12

/-- `str.strip()`: drop leading and trailing whitespace. -/
def pyStrip (s : Str) : Str := (s.dropWhile isSpaceA).reverse.dropWhile isSpaceA |>.reverse

/-- `str.strip(ch)` for a single character. -/
def stripChar (ch : Nat) (s : Str) : Str :=
  (s.dropWhile (· = ch)).reverse.dropWhile (· = ch) |>.reverse

/-- JSON-compatible Python values (ints only for numbers; see module header). -/
inductive JVal where
  | null : JVal
  | bool (b : Bool) : JVal
  | num (n : Int) : JVal
  | str (s : Str) : JVal
  | arr (xs : List JVal) : JVal
  | obj (kvs : List (Str × JVal)) : JVal
deriving Repr

mutual

/-- Structural equality of modelled values (Python `==` on decoded JSON). -/
def JVal.beq : JVal → JVal → Bool
  | .null, .null => true
  | .bool a, .bool b => a == b
  | .num a, .num b => a == b
  | .str a, .str b => a == b
  | .arr xs, .arr ys => JVal.beqList xs ys
  | .obj xs, .obj ys => JVal.beqObj xs ys
  | _, _ => false

/-- Pointwise equality of value lists. -/
def JVal.beqList : List JVal → List JVal → Bool
  | [], [] => true
  | x :: xs, y :: ys => x.beq y && JVal.beqList xs ys
  | _, _ => false

/-- Pointwise equality of key/value lists. -/
def JVal.beqObj : List (Str × JVal) → List (Str × JVal) → Bool
  | [], [] => true
  | (k₁, v₁) :: xs, (k₂, v₂) :: ys => k₁ == k₂ && v₁.beq v₂ && JVal.beqObj xs ys
  | _, _ => false

end

theorem JVal.eq_of_beq_sized :
    ∀ (n : Nat) (a b : JVal), sizeOf a ≤ n → JVal.beq a b = true → a = b := by
  intro n
  induction n with
  | zero =>
    intro a b hs _
    exact absurd hs (by cases a <;> simp)
  | succ n ih =>
    intro a b hs h
    cases a with
    | null => cases b <;> simp_all [JVal.beq]
    | bool x => cases b <;> simp_all [JVal.beq]
    | num x => cases b <;> simp_all [JVal.beq]
    | str x => cases b <;> simp_all [JVal.beq]
    | arr xs =>
      cases b with
      | arr ys =>
        have hsx : sizeOf xs ≤ n := by simp at hs; omega
        have aux : ∀ (l₁ l₂ : List JVal), sizeOf l₁ ≤ n →
            JVal.beqList l₁ l₂ = true → l₁ = l₂ := by
          intro l₁
          induction l₁ with
          | nil => intro l₂ _ hb; cases l₂ with
            | nil => rfl
            | cons y u => simp [JVal.beqList] at hb
          | cons x t iht =>
            intro l₂ hsl hb
            cases l₂ with
            | nil => simp [JVal.beqList] at hb
            | cons y u =>
              simp [JVal.beqList] at hb
              have h₁ : x = y := ih x y (by simp at hsl; omega) hb.1
              have h₂ : t = u := iht u (by simp at hsl; omega) hb.2
              simp [h₁, h₂]
        have := aux xs ys hsx (by simpa [JVal.beq] using h)
        simp [this]
      | null => simp [JVal.beq] at h
      | bool y => simp [JVal.beq] at h
      | num y => simp [JVal.beq] at h
      | str y => simp [JVal.beq] at h
      | obj ys => simp [JVal.beq] at h
    | obj xs =>
      cases b with
      | obj ys =>
        have hsx : sizeOf xs ≤ n := by simp at hs; omega
        have aux : ∀ (l₁ l₂ : List (Str × JVal)), sizeOf l₁ ≤ n →
            JVal.beqObj l₁ l₂ = true → l₁ = l₂ := by
          intro l₁
          induction l₁ with
          | nil => intro l₂ _ hb; cases l₂ with
            | nil => rfl
            | cons y u => simp [JVal.beqObj] at hb
          | cons x t iht =>
            intro l₂ hsl hb
            cases l₂ with
            | nil => simp [JVal.beqObj] at hb
            | cons y u =>
              obtain ⟨k₁, v₁⟩ := x
              obtain ⟨k₂, v₂⟩ := y
              simp [JVal.beqObj] at hb
              have h₁ : v₁ = v₂ := ih v₁ v₂ (by simp at hsl; omega) hb.1.2
              have h₂ : t = u := iht u (by simp at hsl; omega) hb.2
              simp [hb.1.1, h₁, h₂]
        have := aux xs ys hsx (by simpa [JVal.beq] using h)
        simp [this]
      | null => simp [JVal.beq] at h
      | bool y => simp [JVal.beq] at h
      | num y => simp [JVal.beq] at h
      | str y => simp [JVal.beq] at h
      | arr ys => simp [JVal.beq] at h

theorem JVal.beq_refl_sized :
    ∀ (n : Nat) (a : JVal), sizeOf a ≤ n → JVal.beq a a = true := by
  intro n
  induction n with
  | zero =>
    intro a hs
    exact absurd hs (by cases a <;> simp)
  | succ n ih =>
    intro a hs
    cases a with
    | null => simp [JVal.beq]
    | bool x => simp [JVal.beq]
    | num x => simp [JVal.beq]
    | str x => simp [JVal.beq]
    | arr xs =>
      have hsx : sizeOf xs ≤ n := by simp at hs; omega
      have aux : ∀ (l : List JVal), sizeOf l ≤ n → JVal.beqList l l = true := by
        intro l
        induction l with
        | nil => intro _; simp [JVal.beqList]
        | cons x t iht =>
          intro hsl
          simp [JVal.beqList]
          exact ⟨ih x (by simp at hsl; omega), iht (by simp at hsl; omega)⟩
      simpa [JVal.beq] using aux xs hsx
    | obj xs =>
      have hsx : sizeOf xs ≤ n := by simp at hs; omega
      have aux : ∀ (l : List (Str × JVal)), sizeOf l ≤ n → JVal.beqObj l l = true := by
        intro l
        induction l with
        | nil => intro _; simp [JVal.beqObj]
        | cons x t iht =>
          intro hsl
          obtain ⟨k, v⟩ := x
          simp [JVal.beqObj]
          exact ⟨ih v (by simp at hsl; omega), iht (by simp at hsl; omega)⟩
      simpa [JVal.beq] using aux xs hsx

theorem JVal.beq_iff_eq (a b : JVal) : JVal.beq a b = true ↔ a = b := by
  constructor
  · exact JVal.eq_of_beq_sized (sizeOf a) a b le_rfl
  · rintro rfl
    exact JVal.beq_refl_sized (sizeOf a) a le_rfl

instance : DecidableEq JVal := fun a b =>
  if h : JVal.beq a b = true then
    isTrue ((JVal.beq_iff_eq a b).mp h)
  else
    isFalse (fun he => h ((JVal.beq_iff_eq a b).mpr he))

/-- `dict.get k`: first binding of `k` (Python dicts have unique keys, so
first = only). -/
def pyLookup (kvs : List (Str × JVal)) (k : Str) : Option JVal :=
  match kvs with
  | [] => none
  | (k', v) :: t => if k' = k then some v else pyLookup t k

/-- `d[k] = v`: replace the binding in place if the key exists, else append
(CPython keeps the original position on update). -/
def pyInsert (kvs : List (Str × JVal)) (k : Str) (v : JVal) : List (Str × JVal) :=
  match kvs with
  | [] => [(k, v)]
  | (k', v') :: t => if k' = k then (k', v) :: t else (k', v') :: pyInsert t k v

mutual

/-- Well-formedness of a modelled Python value: strings hold valid scalar
values and dicts have no duplicate keys (always true of real Python data). -/
def JVal.wf : JVal → Bool
  | .null => true
  | .bool _ => true
  | .num _ => true
  | .str s => decide (WfStr s)
  | .arr xs => JVal.wfList xs
  | .obj kvs => (kvs.map Prod.fst).Nodup && JVal.wfObj kvs

/-- All list elements are well formed. -/
def JVal.wfList : List JVal → Bool
  | [] => true
  | x :: t => x.wf && JVal.wfList t

/-- All keys are well-formed strings and all values well formed. -/
def JVal.wfObj : List (Str × JVal) → Bool
  | [] => true
  | (k, v) :: t => decide (WfStr k) && v.wf && JVal.wfObj t

end

/-- UTF-8 encoding of one valid scalar value (`str.encode("utf-8")`, per char). -/
def utf8EncodeChar (c : Nat) : List Nat :=
  if c < 0x80 then [c]
  else if c < 0x800 then [0xC0 + c / 64, 0x80 + c % 64]
  else if c < 0x10000 then [0xE0 + c / 4096, 0x80 + (c / 64) % 64, 0x80 + c % 64]
  else [0xF0 + c / 262144, 0x80 + (c / 4096) % 64, 0x80 + (c / 64) % 64, 0x80 + c % 64]

/-- `str.encode("utf-8")` (total on well-formed strings; Python raises on
lone surrogates, which `WfStr` excludes). -/
def utf8Encode (s : Str) : Bytes := (s.map utf8EncodeChar).flatten

/-- Fuelled strict UTF-8 decoder; one unit of fuel is spent per decoded
character, and the out-of-range sentinel `0` produced by `headD`/`getD` on a
truncated tail fails every continuation-byte test, so truncated input yields
`none` exactly as Python's strict decoder raises. -/
def utf8DecodeF : Nat → Bytes → Option Str
  | _, [] => some []
  | 0, _ :: _ => none
  | fuel + 1, b₀ :: t =>
    if b₀ < 0x80 then (utf8DecodeF fuel t).map (b₀ :: ·)
    else if b₀ < 0xC2 then none
    else if b₀ < 0xE0 then
      if 0x80 ≤ t.headD 0 ∧ t.headD 0 < 0xC0 then
        (utf8DecodeF fuel (t.drop 1)).map
          (((b₀ - 0xC0) * 64 + (t.headD 0 - 0x80)) :: ·)
      else none
    else if b₀ < 0xF0 then
      if ((b₀ = 0xE0 ∧ 0xA0 ≤ t.headD 0 ∧ t.headD 0 < 0xC0) ∨
          (b₀ = 0xED ∧ 0x80 ≤ t.headD 0 ∧ t.headD 0 < 0xA0) ∨
          (b₀ ≠ 0xE0 ∧ b₀ ≠ 0xED ∧ 0x80 ≤ t.headD 0 ∧ t.headD 0 < 0xC0)) ∧
          (0x80 ≤ (t.get? 1).getD 0 ∧ (t.get? 1).getD 0 < 0xC0) then
        (utf8DecodeF fuel (t.drop 2)).map
          (((b₀ - 0xE0) * 4096 + (t.headD 0 - 0x80) * 64 +
            ((t.get? 1).getD 0 - 0x80)) :: ·)
      else none
    else if b₀ < 0xF5 then
      if ((b₀ = 0xF0 ∧ 0x90 ≤ t.headD 0 ∧ t.headD 0 < 0xC0) ∨
          (b₀ = 0xF4 ∧ 0x80 ≤ t.headD 0 ∧ t.headD 0 < 0x90) ∨
          (0xF1 ≤ b₀ ∧ b₀ ≤ 0xF3 ∧ 0x80 ≤ t.headD 0 ∧ t.headD 0 < 0xC0)) ∧
          (0x80 ≤ (t.get? 1).getD 0 ∧ (t.get? 1).getD 0 < 0xC0) ∧
          (0x80 ≤ (t.get? 2).getD 0 ∧ (t.get? 2).getD 0 < 0xC0) then
        (utf8DecodeF fuel (t.drop 3)).map
          (((b₀ - 0xF0) * 262144 + (t.headD 0 - 0x80) * 4096 +
            ((t.get? 1).getD 0 - 0x80) * 64 + ((t.get? 2).getD 0 - 0x80)) :: ·)
      else none
    else none

/-- Strict UTF-8 decoding, `bytes.decode("utf-8")`: rejects truncated
sequences, stray continuation bytes, overlong forms, surrogates and code
points above `0x10FFFF`; `none` models the `UnicodeDecodeError`.  The length
of the input is always enough fuel because every character consumes at least
one byte. -/
def utf8Decode (b : Bytes) : Option Str := utf8DecodeF b.length b

example : pyStr "ab" = [97, 98] := by decide

example : utf8Encode (pyStr "aé€") = [97, 0xC3, 0xA9, 0xE2, 0x82, 0xAC] := by decide

example : utf8Decode [97, 0xC3, 0xA9, 0xE2, 0x82, 0xAC] = some (pyStr "aé€") := by decide

example : utf8Decode [0xC0, 0x80] = none := by decide

example : utf8Decode [0xED, 0xA0, 0x80] = none := by decide

example : utf8Decode [0x80] = none := by decide

theorem utf8DecodeF_encodeChar (fuel c : Nat) (rest : Bytes) (h : ValidCp c) :
    utf8DecodeF (fuel + 1) (utf8EncodeChar c ++ rest)
      = (utf8DecodeF fuel rest).map (c :: ·) := by
  have h' : c < 0xD800 ∨ (0xE000 ≤ c ∧ c < 0x110000) := h
  by_cases h1 : c < 0x80
  · have e : utf8EncodeChar c = [c] := by
      unfold utf8EncodeChar; rw [if_pos h1]
    rw [e]
    show utf8DecodeF (fuel + 1) (c :: rest) = _
    rw [utf8DecodeF, if_pos h1]
  · by_cases h2 : c < 0x800
    · have e : utf8EncodeChar c = [0xC0 + c / 64, 0x80 + c % 64] := by
        unfold utf8EncodeChar; rw [if_neg h1, if_pos h2]
      rw [e]
      show utf8DecodeF (fuel + 1) ((0xC0 + c / 64) :: (0x80 + c % 64) :: rest) = _
      rw [utf8DecodeF,
        if_neg (by omega), if_neg (by omega), if_pos (by omega : 0xC0 + c / 64 < 0xE0)]
      simp only [List.headD_cons, List.drop_succ_cons, List.drop_zero]
      rw [if_pos (by omega : 0x80 ≤ 0x80 + c % 64 ∧ 0x80 + c % 64 < 0xC0)]
      have hcp : (0xC0 + c / 64 - 0xC0) * 64 + (0x80 + c % 64 - 0x80) = c := by omega
      rw [hcp]
    · by_cases h3 : c < 0x10000
      · have e : utf8EncodeChar c =
            [0xE0 + c / 4096, 0x80 + (c / 64) % 64, 0x80 + c % 64] := by
          unfold utf8EncodeChar; rw [if_neg h1, if_neg h2, if_pos h3]
        rw [e]
        show utf8DecodeF (fuel + 1) ((0xE0 + c / 4096) :: (0x80 + (c / 64) % 64) ::
          (0x80 + c % 64) :: rest) = _
        rw [utf8DecodeF,
          if_neg (by omega), if_neg (by omega), if_neg (by omega),
          if_pos (by omega : 0xE0 + c / 4096 < 0xF0)]
        simp only [List.headD_cons, List.get?_cons_succ, List.get?_cons_zero,
          Option.getD_some, List.drop_succ_cons, List.drop_zero]
        rw [if_pos (by omega)]
        have hcp : (0xE0 + c / 4096 - 0xE0) * 4096 +
            (0x80 + (c / 64) % 64 - 0x80) * 64 + (0x80 + c % 64 - 0x80) = c := by
          omega
        rw [hcp]
      · have h4 : c < 0x110000 := by omega
        have e : utf8EncodeChar c =
            [0xF0 + c / 262144, 0x80 + (c / 4096) % 64,
             0x80 + (c / 64) % 64, 0x80 + c % 64] := by
          unfold utf8EncodeChar; rw [if_neg h1, if_neg h2, if_neg h3]
        rw [e]
        show utf8DecodeF (fuel + 1) ((0xF0 + c / 262144) :: (0x80 + (c / 4096) % 64) ::
          (0x80 + (c / 64) % 64) :: (0x80 + c % 64) :: rest) = _
        rw [utf8DecodeF,
          if_neg (by omega), if_neg (by omega), if_neg (by omega),
          if_neg (by omega), if_pos (by omega : 0xF0 + c / 262144 < 0xF5)]
        simp only [List.headD_cons, List.get?_cons_succ, List.get?_cons_zero,
          Option.getD_some, List.drop_succ_cons, List.drop_zero]
        rw [if_pos (by omega)]
        have hcp : (0xF0 + c / 262144 - 0xF0) * 262144 +
            (0x80 + (c / 4096) % 64 - 0x80) * 4096 +
            (0x80 + (c / 64) % 64 - 0x80) * 64 + (0x80 + c % 64 - 0x80) = c := by
          omega
        rw [hcp]

theorem utf8DecodeF_utf8Encode (s : Str) :
    ∀ fuel, WfStr s → s.length ≤ fuel →
      utf8DecodeF fuel (utf8Encode s) = some s := by
  induction s with
  | nil =>
    intro fuel _ _
    cases fuel <;> rfl
  | cons c t ih =>
    intro fuel hwf hlen
    have hc : ValidCp c := hwf c (by simp)
    have ht : WfStr t := fun x hx => hwf x (by simp [hx])
    cases fuel with
    | zero => simp at hlen
    | succ fuel =>
      have e : utf8Encode (c :: t) = utf8EncodeChar c ++ utf8Encode t := rfl
      rw [e, utf8DecodeF_encodeChar fuel c _ hc, ih fuel ht (by simp at hlen; omega)]
      rfl

theorem utf8EncodeChar_length_pos (c : Nat) : 1 ≤ (utf8EncodeChar c).length := by
  unfold utf8EncodeChar
  split
  · simp
  · split
    · simp
    · split <;> simp

theorem length_le_utf8Encode_length (s : Str) : s.length ≤ (utf8Encode s).length := by
  induction s with
  | nil => simp [utf8Encode]
  | cons c t ih =>
    have e : utf8Encode (c :: t) = utf8EncodeChar c ++ utf8Encode t := rfl
    rw [e]
    simp only [List.length_cons, List.length_append]
    have := utf8EncodeChar_length_pos c
    omega

/-- Python's UTF-8 round trip: strict decode of the encoding of a
well-formed string gives the string back. -/
theorem utf8Decode_utf8Encode (s : Str) (h : WfStr s) :
    utf8Decode (utf8Encode s) = some s :=
  utf8DecodeF_utf8Encode s (utf8Encode s).length h (length_le_utf8Encode_length s)

/-- The standard base64 alphabet, index (0..63) to ASCII code. -/
def b64Char (n : Nat) : Nat :=
  if n < 26 then 65 + n
  else if n < 52 then 97 + (n - 26)
  else if n < 62 then 48 + (n - 52)
  else if n = 62 then 43
  else 47

/-- Inverse of the base64 alphabet (`none` off the alphabet; `=` is 61 and is
not in the alphabet). -/
def b64CharInv (c : Nat) : Option Nat :=
  if 65 ≤ c ∧ c ≤ 90 then some (c - 65)
  else if 97 ≤ c ∧ c ≤ 122 then some (26 + (c - 97))
  else if 48 ≤ c ∧ c ≤ 57 then some (52 + (c - 48))
  else if c = 43 then some 62
  else if c = 47 then some 63
  else none

/-- Character is in the base64 alphabet. -/
def isB64Alpha (c : Nat) : Bool := (b64CharInv c).isSome

/-- `base64.b64encode`: three bytes to four alphabet characters, padded with
`=` (61). -/
def b64encode : Bytes → Str
  | [] => []
  | [a] => [b64Char (a / 4), b64Char ((a % 4) * 16), 61, 61]
  | [a, b] =>
    [b64Char (a / 4), b64Char ((a % 4) * 16 + b / 16), b64Char ((b % 16) * 4), 61]
  | a :: b :: c :: t =>
    b64Char (a / 4) :: b64Char ((a % 4) * 16 + b / 16) ::
      b64Char ((b % 16) * 4 + c / 64) :: b64Char (c % 64) :: b64encode t

/-- Decode groups of four characters; a trailing group shorter than four is
Python's `binascii.Error: Incorrect padding`, modelled as `none`. -/
def b64decodeGroups : Str → Option Bytes
  | [] => some []
  | c₁ :: c₂ :: c₃ :: c₄ :: t =>
    (b64CharInv c₁).bind fun n₁ =>
    (b64CharInv c₂).bind fun n₂ =>
    if c₃ = 61 ∧ c₄ = 61 ∧ t = [] then some [n₁ * 4 + n₂ / 16]
    else if c₄ = 61 ∧ t = [] then
      (b64CharInv c₃).bind fun n₃ =>
        some [n₁ * 4 + n₂ / 16, (n₂ % 16) * 16 + n₃ / 4]
    else
      (b64CharInv c₃).bind fun n₃ =>
      (b64CharInv c₄).bind fun n₄ =>
      (b64decodeGroups t).map
        ((n₁ * 4 + n₂ / 16) :: ((n₂ % 16) * 16 + n₃ / 4) :: ((n₃ % 4) * 64 + n₄) :: ·)
  | _ => none

/-- `base64.b64decode` with its default laxness: characters outside the
alphabet (other than `=`) are discarded before decoding. -/
def b64decode (s : Str) : Option Bytes :=
  b64decodeGroups (s.filter (fun c => isB64Alpha c || c == 61))

theorem b64CharInv_b64Char (n : Nat) (h : n < 64) :
    b64CharInv (b64Char n) = some n := by
  by_cases h1 : n < 26
  · have e : b64Char n = 65 + n := by unfold b64Char; rw [if_pos h1]
    rw [e]; unfold b64CharInv
    rw [if_pos (by omega)]
    congr 1; omega
  · by_cases h2 : n < 52
    · have e : b64Char n = 97 + (n - 26) := by
        unfold b64Char; rw [if_neg h1, if_pos h2]
      rw [e]; unfold b64CharInv
      rw [if_neg (by omega), if_pos (by omega)]
      congr 1; omega
    · by_cases h3 : n < 62
      · have e : b64Char n = 48 + (n - 52) := by
          unfold b64Char; rw [if_neg h1, if_neg h2, if_pos h3]
        rw [e]; unfold b64CharInv
        rw [if_neg (by omega), if_neg (by omega), if_pos (by omega)]
        congr 1; omega
      · by_cases h4 : n = 62
        · have e : b64Char n = 43 := by
            unfold b64Char; rw [if_neg h1, if_neg h2, if_neg h3, if_pos h4]
          rw [e]; unfold b64CharInv
          rw [if_neg (by omega), if_neg (by omega), if_neg (by omega), if_pos rfl]
          congr 1; omega
        · have e : b64Char n = 47 := by
            unfold b64Char; rw [if_neg h1, if_neg h2, if_neg h3, if_neg h4]
          rw [e]; unfold b64CharInv
          rw [if_neg (by omega), if_neg (by omega), if_neg (by omega),
            if_neg (by omega), if_pos rfl]
          congr 1; omega

theorem b64Char_ne_pad (n : Nat) : b64Char n ≠ 61 := by
  by_cases h1 : n < 26
  · have e : b64Char n = 65 + n := by unfold b64Char; rw [if_pos h1]
    rw [e]; omega
  · by_cases h2 : n < 52
    · have e : b64Char n = 97 + (n - 26) := by
        unfold b64Char; rw [if_neg h1, if_pos h2]
      rw [e]; omega
    · by_cases h3 : n < 62
      · have e : b64Char n = 48 + (n - 52) := by
          unfold b64Char; rw [if_neg h1, if_neg h2, if_pos h3]
        rw [e]; omega
      · by_cases h4 : n = 62
        · have e : b64Char n = 43 := by
            unfold b64Char; rw [if_neg h1, if_neg h2, if_neg h3, if_pos h4]
          rw [e]; omega
        · have e : b64Char n = 47 := by
            unfold b64Char; rw [if_neg h1, if_neg h2, if_neg h3, if_neg h4]
          rw [e]; omega

theorem b64decodeGroups_b64encode :
    ∀ (n : Nat) (b : Bytes), b.length ≤ n → isBytes b →
      b64decodeGroups (b64encode b) = some b := by
  intro n
  induction n with
  | zero =>
    intro b hlen _
    rcases b with _ | ⟨a, t⟩
    · rfl
    · simp at hlen
  | succ n ih =>
    intro b hlen hbytes
    rcases b with _ | ⟨a, _ | ⟨b₂, _ | ⟨c, t⟩⟩⟩
    · rfl
    · have ha : a < 256 := hbytes a (by simp)
      show b64decodeGroups [b64Char (a / 4), b64Char ((a % 4) * 16), 61, 61]
        = some [a]
      rw [b64decodeGroups, b64CharInv_b64Char _ (by omega),
        b64CharInv_b64Char _ (by omega)]
      simp only [Option.some_bind]
      rw [if_pos (by simp)]
      congr 1
      have : a / 4 * 4 + a % 4 * 16 / 16 = a := by omega
      rw [this]
    · have ha : a < 256 := hbytes a (by simp)
      have hb : b₂ < 256 := hbytes b₂ (by simp)
      show b64decodeGroups [b64Char (a / 4), b64Char ((a % 4) * 16 + b₂ / 16),
        b64Char ((b₂ % 16) * 4), 61] = some [a, b₂]
      rw [b64decodeGroups, b64CharInv_b64Char _ (by omega),
        b64CharInv_b64Char _ (by omega)]
      simp only [Option.some_bind]
      rw [if_neg (by simp [b64Char_ne_pad]), if_pos (by simp),
        b64CharInv_b64Char _ (by omega)]
      simp only [Option.some_bind]
      congr 1
      have e₁ : a / 4 * 4 + (a % 4 * 16 + b₂ / 16) / 16 = a := by omega
      have e₂ : (a % 4 * 16 + b₂ / 16) % 16 * 16 + b₂ % 16 * 4 / 4 = b₂ := by omega
      rw [e₁, e₂]
    · have ha : a < 256 := hbytes a (by simp)
      have hb : b₂ < 256 := hbytes b₂ (by simp)
      have hc : c < 256 := hbytes c (by simp)
      have hbytes' : isBytes t := fun x hx => hbytes x (by simp [hx])
      have hlen' : t.length ≤ n := by simp at hlen; omega
      show b64decodeGroups (b64Char (a / 4) :: b64Char ((a % 4) * 16 + b₂ / 16) ::
        b64Char ((b₂ % 16) * 4 + c / 64) :: b64Char (c % 64) :: b64encode t)
        = some (a :: b₂ :: c :: t)
      rw [b64decodeGroups, b64CharInv_b64Char _ (by omega),
        b64CharInv_b64Char _ (by omega)]
      simp only [Option.some_bind]
      rw [if_neg (by simp [b64Char_ne_pad]), if_neg (by simp [b64Char_ne_pad]),
        b64CharInv_b64Char _ (by omega), b64CharInv_b64Char _ (by omega)]
      simp only [Option.some_bind]
      rw [ih t hlen' hbytes', Option.map_some']
      congr 1
      have e₁ : a / 4 * 4 + (a % 4 * 16 + b₂ / 16) / 16 = a := by omega
      have e₂ : (a % 4 * 16 + b₂ / 16) % 16 * 16 + (b₂ % 16 * 4 + c / 64) / 4 = b₂ := by
        omega
      have e₃ : (b₂ % 16 * 4 + c / 64) % 4 * 64 + c % 64 = c := by omega
      rw [e₁, e₂, e₃]

theorem b64encode_mem_filter :
    ∀ (n : Nat) (b : Bytes), b.length ≤ n → isBytes b →
      ∀ c ∈ b64encode b, (isB64Alpha c || c == 61) = true := by
  intro n
  induction n with
  | zero =>
    intro b hlen _
    rcases b with _ | ⟨a, t⟩
    · intro c hc; simp [b64encode] at hc
    · simp at hlen
  | succ n ih =>
    have alpha : ∀ m : Nat, m < 64 → (isB64Alpha (b64Char m) || b64Char m == 61) = true := by
      intro m hm
      simp [isB64Alpha, b64CharInv_b64Char m hm]
    intro b hlen hbytes
    rcases b with _ | ⟨a, _ | ⟨b₂, _ | ⟨c, t⟩⟩⟩
    · intro c hc; simp [b64encode] at hc
    · have ha : a < 256 := hbytes a (by simp)
      intro x hx
      have e : b64encode [a] = [b64Char (a / 4), b64Char ((a % 4) * 16), 61, 61] := rfl
      rw [e] at hx
      simp only [List.mem_cons, List.mem_singleton] at hx
      rcases hx with rfl | rfl | rfl | hx
      · exact alpha _ (by omega)
      · exact alpha _ (by omega)
      · simp
      · simp at hx; subst hx; simp
    · have ha : a < 256 := hbytes a (by simp)
      have hb : b₂ < 256 := hbytes b₂ (by simp)
      intro x hx
      have e : b64encode [a, b₂] = [b64Char (a / 4), b64Char ((a % 4) * 16 + b₂ / 16),
        b64Char ((b₂ % 16) * 4), 61] := rfl
      rw [e] at hx
      simp only [List.mem_cons, List.mem_singleton] at hx
      rcases hx with rfl | rfl | rfl | hx
      · exact alpha _ (by omega)
      · exact alpha _ (by omega)
      · exact alpha _ (by omega)
      · simp at hx; subst hx; simp
    · have ha : a < 256 := hbytes a (by simp)
      have hb : b₂ < 256 := hbytes b₂ (by simp)
      have hc : c < 256 := hbytes c (by simp)
      have hbytes' : isBytes t := fun x hx => hbytes x (by simp [hx])
      have hlen' : t.length ≤ n := by simp at hlen; omega
      intro x hx
      have e : b64encode (a :: b₂ :: c :: t) = b64Char (a / 4) ::
        b64Char ((a % 4) * 16 + b₂ / 16) :: b64Char ((b₂ % 16) * 4 + c / 64) ::
        b64Char (c % 64) :: b64encode t := rfl
      rw [e] at hx
      simp only [List.mem_cons] at hx
      rcases hx with rfl | rfl | rfl | rfl | hx
      · exact alpha _ (by omega)
      · exact alpha _ (by omega)
      · exact alpha _ (by omega)
      · exact alpha _ (by omega)
      · exact ih t hlen' hbytes' x hx

/-- Python's base64 round trip: decoding the standard encoding of any byte
string gives the bytes back. -/
theorem b64decode_b64encode (b : Bytes) (h : isBytes b) :
    b64decode (b64encode b) = some b := by
  unfold b64decode
  rw [List.filter_eq_self.mpr (b64encode_mem_filter b.length b le_rfl h)]
  exact b64decodeGroups_b64encode b.length b le_rfl h

/-- Decimal digit characters of a natural number (fuelled helper). -/
def natDigitsAux : Nat → Nat → Str
  | 0, _ => []
  | fuel + 1, n =>
    if n < 10 then [48 + n] else natDigitsAux fuel (n / 10) ++ [48 + n % 10]

/-- Decimal digit characters of a natural number (`str(n)` for `n ≥ 0`). -/
def natDigits (n : Nat) : Str := natDigitsAux (n + 1) n

/-- Python `str(n)` / `json.dumps(n)` for an int: optional minus sign and
decimal digits. -/
def intRepr (n : Int) : Str :=
  if n < 0 then 45 :: natDigits n.natAbs else natDigits n.toNat

/-- ASCII decimal digit. -/
def isDigitA (c : Nat) : Bool := 48 ≤ c && c ≤ 57

/-- Lowercase hex digit character for a nibble. -/
def hexDigitChar (n : Nat) : Nat := if n < 10 then 48 + n else 87 + n

/-- Hex digit value of a character, upper or lower case. -/
def hexVal (c : Nat) : Option Nat :=
  if 48 ≤ c ∧ c ≤ 57 then some (c - 48)
  else if 97 ≤ c ∧ c ≤ 102 then some (c - 87)
  else if 65 ≤ c ∧ c ≤ 70 then some (c - 55)
  else none

/-- `json.dumps` string escaping with `ensure_ascii=False`: escape the quote,
the backslash and control characters (short escapes for `\b \t \n \f \r`,
`\u00xx` otherwise); everything else is emitted literally. -/
def escapeChar (c : Nat) : Str :=
  if c = 34 then [92, 34]
  else if c = 92 then [92, 92]
  else if c < 32 then
    if c = 8 then [92, 98]
    else if c = 9 then [92, 116]
    else if c = 10 then [92, 110]
    else if c = 12 then [92, 102]
    else if c = 13 then [92, 114]
    else [92, 117, 48, 48, hexDigitChar (c / 16), hexDigitChar (c % 16)]
  else [c]

/-- Escape a whole string body. -/
def jsonEscape (s : Str) : Str := (s.map escapeChar).flatten

mutual

/-- `json.dumps(value, ensure_ascii=False, separators=(",", ":"))`: the
compact serialization used by `_encode_value` and (indent aside) the value
layout of `_write_json`. -/
def jsonDump : JVal → Str
  | .null => [110, 117, 108, 108]
  | .bool true => [116, 114, 117, 101]
  | .bool false => [102, 97, 108, 115, 101]
  | .num n => intRepr n
  | .str s => 34 :: jsonEscape s ++ [34]
  | .arr xs => 91 :: jsonDumpArr xs ++ [93]
  | .obj kvs => 123 :: jsonDumpObj kvs ++ [125]

/-- Comma-joined array elements. -/
def jsonDumpArr : List JVal → Str
  | [] => []
  | x :: t => jsonDump x ++ (if t.isEmpty then [] else 44 :: jsonDumpArr t)

/-- Comma-joined `"key":value` members. -/
def jsonDumpObj : List (Str × JVal) → Str
  | [] => []
  | (k, v) :: t =>
    34 :: jsonEscape k ++ [34] ++ 58 :: jsonDump v ++
      (if t.isEmpty then [] else 44 :: jsonDumpObj t)

end

/-- JSON whitespace accepted between tokens by `json.loads`. -/
def isJsonWs (c : Nat) : Bool := c = 32 || c = 9 || c = 10 || c = 13

/-- Skip leading JSON whitespace. -/
def skipWs (s : Str) : Str := s.dropWhile isJsonWs

/-- Longest leading run of decimal digits and the remainder. -/
def spanDigits : Str → (Str × Str)
  | [] => ([], [])
  | c :: t =>
    if isDigitA c then
      let p := spanDigits t
      (c :: p.1, p.2)
    else ([], c :: t)

/-- Numeric value of a digit string. -/
def digitsVal (s : Str) : Nat := s.foldl (fun a c => a * 10 + (c - 48)) 0

/-- Parse a JSON number the way Python's scanner matches its number regex:
optional minus, then `0` or a nonzero-led digit run (maximal); a fractional
part or exponent would produce a float, which is outside this model, so it
answers `none` there (as it does for the nonstandard `NaN`/`Infinity`
constants). -/
def parseNumNat (s : Str) : Option (Nat × Str) :=
  let p := spanDigits s
  if p.1.isEmpty then none
  else
    let intPart : Str := if p.1.headD 0 = 48 then [48] else p.1
    let rest : Str := if p.1.headD 0 = 48 then p.1.drop 1 ++ p.2 else p.2
    if rest.headD 0 = 46 ∧ isDigitA ((rest.get? 1).getD 0) then none
    else if (rest.headD 0 = 101 ∨ rest.headD 0 = 69) ∧
        (isDigitA ((rest.get? 1).getD 0) ∨
          (((rest.get? 1).getD 0 = 43 ∨ (rest.get? 1).getD 0 = 45) ∧
            isDigitA ((rest.get? 2).getD 0))) then none
    else some (digitsVal intPart, rest)

/-- The signed wrapper around `parseNumNat`: a leading minus negates. -/
def parseNum (s : Str) : Option (Int × Str) :=
  if s.headD 0 = 45 then
    (parseNumNat (s.drop 1)).map (fun p => (-(p.1 : Int), p.2))
  else (parseNumNat s).map (fun p => ((p.1 : Int), p.2))

/-- Parse a JSON string body (after the opening quote) in strict mode:
closing quote ends it, raw control characters are rejected, the standard
escapes and `\uXXXX` (with surrogate pairs combined) are decoded.  Lone
surrogate escapes, which CPython would accept, are outside the model's
string domain and answer `none`. -/
def parseStrBody : Nat → Str → Option (Str × Str)
  | 0, _ => none
  | _ + 1, [] => none
  | fuel + 1, c :: t =>
    if c = 34 then some ([], t)
    else if c = 92 then
      let e := t.headD 0
      if e = 34 ∨ e = 92 ∨ e = 47 then
        (parseStrBody fuel (t.drop 1)).map (fun p => (e :: p.1, p.2))
      else if e = 98 then (parseStrBody fuel (t.drop 1)).map (fun p => (8 :: p.1, p.2))
      else if e = 116 then (parseStrBody fuel (t.drop 1)).map (fun p => (9 :: p.1, p.2))
      else if e = 110 then (parseStrBody fuel (t.drop 1)).map (fun p => (10 :: p.1, p.2))
      else if e = 102 then (parseStrBody fuel (t.drop 1)).map (fun p => (12 :: p.1, p.2))
      else if e = 114 then (parseStrBody fuel (t.drop 1)).map (fun p => (13 :: p.1, p.2))
      else if e = 117 then
        (hexVal ((t.get? 1).getD 0)).bind fun h₁ =>
        (hexVal ((t.get? 2).getD 0)).bind fun h₂ =>
        (hexVal ((t.get? 3).getD 0)).bind fun h₃ =>
        (hexVal ((t.get? 4).getD 0)).bind fun h₄ =>
        let cp := h₁ * 4096 + h₂ * 256 + h₃ * 16 + h₄
        if cp < 0xD800 ∨ 0xE000 ≤ cp then
          (parseStrBody fuel (t.drop 5)).map (fun p => (cp :: p.1, p.2))
        else if cp < 0xDC00 then
          if (t.get? 5).getD 0 = 92 ∧ (t.get? 6).getD 0 = 117 then
            (hexVal ((t.get? 7).getD 0)).bind fun g₁ =>
            (hexVal ((t.get? 8).getD 0)).bind fun g₂ =>
            (hexVal ((t.get? 9).getD 0)).bind fun g₃ =>
            (hexVal ((t.get? 10).getD 0)).bind fun g₄ =>
            let lo := g₁ * 4096 + g₂ * 256 + g₃ * 16 + g₄
            if 0xDC00 ≤ lo ∧ lo < 0xE000 then
              (parseStrBody fuel (t.drop 11)).map
                (fun p => ((0x10000 + (cp - 0xD800) * 1024 + (lo - 0xDC00)) :: p.1, p.2))
            else none
          else none
        else none
      else none
    else if c < 32 then none
    else (parseStrBody fuel t).map (fun p => (c :: p.1, p.2))

mutual

/-- Fuelled JSON value scanner mirroring `json.loads`' C scanner on a
whitespace-free cursor position: literals, strings, numbers, and fuelled
recursion into arrays and objects. -/
def parseValF : Nat → Str → Option (JVal × Str)
  | 0, _ => none
  | fuel + 1, s =>
    match s with
    | [] => none
    | c :: t =>
      if c = 110 then
        if t.take 3 = [117, 108, 108] then some (.null, t.drop 3) else none
      else if c = 116 then
        if t.take 3 = [114, 117, 101] then some (.bool true, t.drop 3) else none
      else if c = 102 then
        if t.take 4 = [97, 108, 115, 101] then some (.bool false, t.drop 4) else none
      else if c = 34 then
        (parseStrBody t.length t).map (fun p => (.str p.1, p.2))
      else if c = 91 then
        let t₁ := skipWs t
        if t₁.headD 0 = 93 then some (.arr [], t₁.drop 1)
        else (parseArrF fuel t₁).map (fun p => (.arr p.1, p.2))
      else if c = 123 then
        let t₁ := skipWs t
        if t₁.headD 0 = 125 then some (.obj [], t₁.drop 1)
        else
          (parseObjF fuel t₁).map
            (fun p => (.obj (p.1.foldl (fun acc kv => pyInsert acc kv.1 kv.2) []), p.2))
      else (parseNum (c :: t)).map (fun p => (.num p.1, p.2))

/-- Array members after `[` (whitespace already skipped, not `]`). -/
def parseArrF : Nat → Str → Option (List JVal × Str)
  | 0, _ => none
  | fuel + 1, s =>
    (parseValF fuel s).bind fun p =>
      let r₁ := skipWs p.2
      if r₁.headD 0 = 44 then
        (parseArrF fuel (skipWs (r₁.drop 1))).map (fun q => (p.1 :: q.1, q.2))
      else if r₁.headD 0 = 93 then some ([p.1], r₁.drop 1)
      else none

/-- Object members after `{` (whitespace already skipped, not `}`); the raw
pair list in source order, deduplicated by the caller exactly as `dict(pairs)`
does. -/
def parseObjF : Nat → Str → Option (List (Str × JVal) × Str)
  | 0, _ => none
  | fuel + 1, s =>
    if s.headD 0 = 34 then
      (parseStrBody (s.drop 1).length (s.drop 1)).bind fun kp =>
        let r₁ := skipWs kp.2
        if r₁.headD 0 = 58 then
          (parseValF fuel (skipWs (r₁.drop 1))).bind fun vp =>
            let r₃ := skipWs vp.2
            if r₃.headD 0 = 44 then
              (parseObjF fuel (skipWs (r₃.drop 1))).map
                (fun q => ((kp.1, vp.1) :: q.1, q.2))
            else if r₃.headD 0 = 125 then some ([(kp.1, vp.1)], r₃.drop 1)
            else none
        else none
    else none

end

/-- `json.loads`: skip leading whitespace, scan one value, require only
whitespace after it.  The input length plus one is always enough fuel because
every recursion step consumes at least one character first. -/
def jsonLoads (s : Str) : Option JVal :=
  match parseValF (s.length + 1) (skipWs s) with
  | some (v, r) => if skipWs r = [] then some v else none
  | none => none

example : jsonLoads (pyStr "null") = some JVal.null := by decide

example : jsonLoads (pyStr " [1, -20, \"a\"] ") =
    some (JVal.arr [JVal.num 1, JVal.num (-20), JVal.str (pyStr "a")]) := by decide

example : jsonLoads (pyStr "\x7b\"a\": 1, \"a\": 2\x7d") =
    some (JVal.obj [(pyStr "a", JVal.num 2)]) := by decide

example : jsonLoads (pyStr "1.5") = none := by decide

example : jsonLoads (pyStr "01") = none := by decide

example : jsonLoads (pyStr "hello") = none := by decide

example : jsonDump (JVal.obj [(pyStr "a", JVal.arr [JVal.num 1, JVal.bool true])])
    = pyStr "\x7b\"a\":[1,true]\x7d" := by decide

example : jsonLoads (pyStr "\x7b\"a\":[1,true]\x7d")
    = some (JVal.obj [(pyStr "a", JVal.arr [JVal.num 1, JVal.bool true])]) := by decide

example : jsonDump (JVal.num (-17)) = pyStr "-17" := by decide

example : jsonDump (JVal.str (pyStr "a\"b")) = pyStr "\"a\\\"b\"" := by decide

theorem natDigitsAux_digits :
    ∀ (fuel n : Nat), ∀ c ∈ natDigitsAux fuel n, 48 ≤ c ∧ c ≤ 57 := by
  intro fuel
  induction fuel with
  | zero => intro n c hc; simp [natDigitsAux] at hc
  | succ fuel ih =>
    intro n c hc
    rw [natDigitsAux] at hc
    by_cases h : n < 10
    · rw [if_pos h] at hc
      simp at hc
      omega
    · rw [if_neg h] at hc
      rcases List.mem_append.mp hc with h₁ | h₁
      · exact ih (n / 10) c h₁
      · simp at h₁
        omega

theorem natDigitsAux_ne_nil (fuel n : Nat) : natDigitsAux (fuel + 1) n ≠ [] := by
  rw [natDigitsAux]
  by_cases h : n < 10
  · rw [if_pos h]; simp
  · rw [if_neg h]; simp

theorem natDigitsAux_headD :
    ∀ (fuel n : Nat), n < fuel → 1 ≤ n → (natDigitsAux fuel n).headD 0 ≠ 48 := by
  intro fuel
  induction fuel with
  | zero => omega
  | succ fuel ih =>
    intro n hlt hpos
    rw [natDigitsAux]
    by_cases h : n < 10
    · rw [if_pos h]
      simp
      omega
    · rw [if_neg h]
      have hne : natDigitsAux fuel (n / 10) ≠ [] := by
        rcases fuel with _ | fuel
        · omega
        · exact natDigitsAux_ne_nil fuel (n / 10)
      obtain ⟨a, t, he⟩ : ∃ a t, natDigitsAux fuel (n / 10) = a :: t := by
        rcases hq : natDigitsAux fuel (n / 10) with _ | ⟨a, t⟩
        · exact absurd hq hne
        · exact ⟨a, t, rfl⟩
      rw [he]
      have := ih (n / 10) (by omega) (by omega)
      rw [he] at this
      simpa using this

theorem natDigitsAux_foldl :
    ∀ (fuel n a : Nat), n < fuel →
      (natDigitsAux fuel n).foldl (fun acc c => acc * 10 + (c - 48)) a
        = a * 10 ^ (natDigitsAux fuel n).length + n := by
  intro fuel
  induction fuel with
  | zero => omega
  | succ fuel ih =>
    intro n a hlt
    rw [natDigitsAux]
    by_cases h : n < 10
    · rw [if_pos h]
      simp only [List.foldl_cons, List.foldl_nil, List.length_singleton, pow_one]
      omega
    · rw [if_neg h]
      rw [List.foldl_append, ih (n / 10) a (by omega)]
      simp only [List.length_append, List.length_singleton, List.foldl_cons,
        List.foldl_nil]
      rw [pow_succ, ← mul_assoc]
      have hd : 48 + n % 10 - 48 = n % 10 := by omega
      rw [hd]
      generalize a * 10 ^ (natDigitsAux fuel (n / 10)).length = Q
      omega

theorem natDigits_digits (n : Nat) : ∀ c ∈ natDigits n, 48 ≤ c ∧ c ≤ 57 :=
  natDigitsAux_digits (n + 1) n

theorem natDigits_ne_nil (n : Nat) : natDigits n ≠ [] := natDigitsAux_ne_nil n n

theorem natDigits_headD (n : Nat) (h : 1 ≤ n) : (natDigits n).headD 0 ≠ 48 :=
  natDigitsAux_headD (n + 1) n (by omega) h

theorem digitsVal_natDigits (n : Nat) : digitsVal (natDigits n) = n := by
  have := natDigitsAux_foldl (n + 1) n 0 (by omega)
  simpa [digitsVal, natDigits] using this

theorem spanDigits_append (l r : Str) (hl : ∀ c ∈ l, isDigitA c = true)
    (hr : isDigitA (r.headD 0) = false) : spanDigits (l ++ r) = (l, r) := by
  induction l with
  | nil =>
    rcases r with _ | ⟨c, t⟩
    · rfl
    · simp only [List.nil_append, spanDigits]
      rw [if_neg (by simp at hr; simp [hr])]
  | cons c t ih =>
    simp only [List.cons_append, spanDigits]
    rw [if_pos (hl c (by simp))]
    rw [show t.append r = t ++ r from rfl, ih (fun x hx => hl x (by simp [hx]))]

/-- The conditions under which a number token ends before `r` (true when `r`
is empty or starts with a structural character). -/
def numStopOk (r : Str) : Prop :=
  isDigitA (r.headD 0) = false ∧ r.headD 0 ≠ 46 ∧ r.headD 0 ≠ 101 ∧ r.headD 0 ≠ 69

theorem parseNumNat_natDigits (m : Nat) (r : Str) (h : numStopOk r) :
    parseNumNat (natDigits m ++ r) = some (m, r) := by
  obtain ⟨hd, hdot, he1, he2⟩ := h
  have hspan : spanDigits (natDigits m ++ r) = (natDigits m, r) :=
    spanDigits_append _ _ (fun c hc => by
      have := natDigits_digits m c hc
      simp [isDigitA]
      omega) hd
  obtain ⟨a, t, hat⟩ : ∃ a t, natDigits m = a :: t := by
    rcases hq : natDigits m with _ | ⟨a, t⟩
    · exact absurd hq (natDigits_ne_nil _)
    · exact ⟨a, t, rfl⟩
  simp only [parseNumNat, hspan]
  have hne : (natDigits m).isEmpty = false := by rw [hat]; rfl
  simp only [hne, Bool.false_eq_true, if_false]
  by_cases hz : m = 0
  · subst hz
    rw [show natDigits 0 = [48] from rfl]
    simp only [List.headD_cons, List.drop_succ_cons, List.drop_zero,
      List.nil_append, ite_self]
    rw [if_neg (fun hcon => hdot hcon.1),
      if_neg (fun hcon => Or.elim hcon.1 he1 he2)]
    have hv : digitsVal [48] = 0 := by decide
    rw [hv]
  · have h48 : ¬ (natDigits m).headD 0 = 48 := natDigits_headD _ (by omega)
    rw [if_neg h48, if_neg h48]
    rw [if_neg (fun hcon => hdot hcon.1),
      if_neg (fun hcon => Or.elim hcon.1 he1 he2)]
    rw [digitsVal_natDigits]

theorem parseNum_intRepr (n : Int) (r : Str) (h : numStopOk r) :
    parseNum (intRepr n ++ r) = some (n, r) := by
  by_cases hneg : n < 0
  · have e : intRepr n = 45 :: natDigits n.natAbs := by
      unfold intRepr; rw [if_pos hneg]
    rw [e]
    unfold parseNum
    simp only [List.cons_append, List.headD_cons, if_true]
    simp only [List.drop_succ_cons, List.drop_zero]
    rw [parseNumNat_natDigits _ _ h]
    simp only [Option.map_some']
    congr 1
    congr 1
    omega
  · have e : intRepr n = natDigits n.toNat := by
      unfold intRepr; rw [if_neg hneg]
    rw [e]
    obtain ⟨a, t, hat⟩ : ∃ a t, natDigits n.toNat = a :: t := by
      rcases hq : natDigits n.toNat with _ | ⟨a, t⟩
      · exact absurd hq (natDigits_ne_nil _)
      · exact ⟨a, t, rfl⟩
    have ha : 48 ≤ a ∧ a ≤ 57 := by
      apply natDigits_digits n.toNat
      rw [hat]; simp
    unfold parseNum
    rw [if_neg (by rw [hat]; simp; omega)]
    rw [parseNumNat_natDigits _ _ h]
    simp only [Option.map_some']
    congr 1
    congr 1
    omega

theorem hexVal_hexDigitChar (n : Nat) (h : n < 16) :
    hexVal (hexDigitChar n) = some n := by
  unfold hexDigitChar hexVal
  by_cases h1 : n < 10
  · rw [if_pos h1, if_pos (by omega)]
    congr 1
    omega
  · rw [if_neg h1, if_neg (by omega), if_pos (by omega)]
    congr 1
    omega

theorem escapeChar_length_pos (c : Nat) : 1 ≤ (escapeChar c).length := by
  unfold escapeChar
  repeat' split
  all_goals simp

theorem length_le_jsonEscape (s : Str) : s.length ≤ (jsonEscape s).length := by
  induction s with
  | nil => simp [jsonEscape]
  | cons c s' ih =>
    have e : jsonEscape (c :: s') = escapeChar c ++ jsonEscape s' := by
      show ((escapeChar c :: (s'.map escapeChar)).flatten) = _
      rw [List.flatten_cons]
      rfl
    rw [e]
    simp only [List.length_cons, List.length_append]
    have := escapeChar_length_pos c
    omega

theorem jsonEscape_cons (c : Nat) (s' : Str) :
    jsonEscape (c :: s') = escapeChar c ++ jsonEscape s' := by
  show ((escapeChar c :: (s'.map escapeChar)).flatten) = _
  rw [List.flatten_cons]
  rfl

theorem parseStrBody_jsonEscape :
    ∀ (s : Str) (fuel : Nat) (r : Str), WfStr s → s.length + 1 ≤ fuel →
      parseStrBody fuel (jsonEscape s ++ 34 :: r) = some (s, r) := by
  intro s
  induction s with
  | nil =>
    intro fuel r _ hf
    rcases fuel with _ | fuel
    · omega
    · show parseStrBody (fuel + 1) (34 :: r) = _
      rw [parseStrBody, if_pos rfl]
  | cons c s' ih =>
    intro fuel r hwf hf
    rcases fuel with _ | fuel
    · omega
    have hwf' : WfStr s' := fun x hx => hwf x (by simp [hx])
    have hc : ValidCp c := hwf c (by simp)
    have hf' : s'.length + 1 ≤ fuel := by simp at hf; omega
    rw [jsonEscape_cons, List.append_assoc]
    by_cases h34 : c = 34
    · subst h34
      rw [show escapeChar 34 = [92, 34] from rfl]
      show parseStrBody (fuel + 1) (92 :: 34 :: (jsonEscape s' ++ 34 :: r)) = _
      rw [parseStrBody, if_neg (by omega), if_pos rfl]
      simp only [List.headD_cons, List.drop_succ_cons, List.drop_zero]
      rw [if_pos (by simp), ih fuel r hwf' hf']
      rfl
    · by_cases h92 : c = 92
      · subst h92
        rw [show escapeChar 92 = [92, 92] from rfl]
        show parseStrBody (fuel + 1) (92 :: 92 :: (jsonEscape s' ++ 34 :: r)) = _
        rw [parseStrBody, if_neg (by omega), if_pos rfl]
        simp only [List.headD_cons, List.drop_succ_cons, List.drop_zero]
        rw [if_pos (by simp), ih fuel r hwf' hf']
        rfl
      · by_cases hlt : c < 32
        · by_cases h8 : c = 8
          · subst h8
            rw [show escapeChar 8 = [92, 98] from rfl]
            show parseStrBody (fuel + 1) (92 :: 98 :: (jsonEscape s' ++ 34 :: r)) = _
            rw [parseStrBody, if_neg (by omega), if_pos rfl]
            simp only [List.headD_cons, List.drop_succ_cons, List.drop_zero]
            rw [if_neg (by simp), if_pos (by simp), ih fuel r hwf' hf']
            rfl
          · by_cases h9 : c = 9
            · subst h9
              rw [show escapeChar 9 = [92, 116] from rfl]
              show parseStrBody (fuel + 1) (92 :: 116 :: (jsonEscape s' ++ 34 :: r)) = _
              rw [parseStrBody, if_neg (by omega), if_pos rfl]
              simp only [List.headD_cons, List.drop_succ_cons, List.drop_zero]
              rw [if_neg (by simp), if_neg (by simp), if_pos (by simp),
                ih fuel r hwf' hf']
              rfl
            · by_cases h10 : c = 10
              · subst h10
                rw [show escapeChar 10 = [92, 110] from rfl]
                show parseStrBody (fuel + 1)
                  (92 :: 110 :: (jsonEscape s' ++ 34 :: r)) = _
                rw [parseStrBody, if_neg (by omega), if_pos rfl]
                simp only [List.headD_cons, List.drop_succ_cons, List.drop_zero]
                rw [if_neg (by simp), if_neg (by simp), if_neg (by simp),
                  if_pos (by simp), ih fuel r hwf' hf']
                rfl
              · by_cases h12 : c = 12
                · subst h12
                  rw [show escapeChar 12 = [92, 102] from rfl]
                  show parseStrBody (fuel + 1)
                    (92 :: 102 :: (jsonEscape s' ++ 34 :: r)) = _
                  rw [parseStrBody, if_neg (by omega), if_pos rfl]
                  simp only [List.headD_cons, List.drop_succ_cons, List.drop_zero]
                  rw [if_neg (by simp), if_neg (by simp), if_neg (by simp),
                    if_neg (by simp), if_pos (by simp), ih fuel r hwf' hf']
                  rfl
                · by_cases h13 : c = 13
                  · subst h13
                    rw [show escapeChar 13 = [92, 114] from rfl]
                    show parseStrBody (fuel + 1)
                      (92 :: 114 :: (jsonEscape s' ++ 34 :: r)) = _
                    rw [parseStrBody, if_neg (by omega), if_pos rfl]
                    simp only [List.headD_cons, List.drop_succ_cons, List.drop_zero]
                    rw [if_neg (by simp), if_neg (by simp), if_neg (by simp),
                      if_neg (by simp), if_neg (by simp), if_pos (by simp),
                      ih fuel r hwf' hf']
                    rfl
                  · have e : escapeChar c =
                        [92, 117, 48, 48, hexDigitChar (c / 16), hexDigitChar (c % 16)] := by
                      unfold escapeChar
                      rw [if_neg h34, if_neg h92, if_pos hlt, if_neg h8, if_neg h9,
                        if_neg h10, if_neg h12, if_neg h13]
                    rw [e]
                    show parseStrBody (fuel + 1) (92 :: 117 :: 48 :: 48 ::
                      hexDigitChar (c / 16) :: hexDigitChar (c % 16) ::
                      (jsonEscape s' ++ 34 :: r)) = _
                    rw [parseStrBody, if_neg (by omega), if_pos rfl]
                    simp only [List.headD_cons, List.get?_cons_succ,
                      List.get?_cons_zero, Option.getD_some, List.drop_succ_cons,
                      List.drop_zero]
                    rw [if_neg (by simp), if_neg (by simp), if_neg (by simp),
                      if_neg (by simp), if_neg (by simp), if_neg (by simp),
                      if_pos (by simp)]
                    rw [show hexVal 48 = some 0 from rfl,
                      hexVal_hexDigitChar (c / 16) (by omega),
                      hexVal_hexDigitChar (c % 16) (by omega)]
                    simp only [Option.some_bind]
                    rw [if_pos (Or.inl (by omega))]
                    rw [ih fuel r hwf' hf']
                    simp only [Option.map_some']
                    congr 2
                    have hcp : 0 * 4096 + 0 * 256 + c / 16 * 16 + c % 16 = c := by
                      omega
                    rw [hcp]
        · have e : escapeChar c = [c] := by
            unfold escapeChar
            rw [if_neg h34, if_neg h92, if_neg hlt]
          rw [e]
          show parseStrBody (fuel + 1) (c :: (jsonEscape s' ++ 34 :: r)) = _
          rw [parseStrBody, if_neg h34, if_neg h92, if_neg hlt,
            ih fuel r hwf' hf']
          rfl

mutual

/-- Nesting size of a value: an upper bound on the recursion depth the
fuelled scanner spends on its serialization. -/
def szJ : JVal → Nat
  | .null => 1
  | .bool _ => 1
  | .num _ => 1
  | .str _ => 1
  | .arr xs => szList xs + 1
  | .obj kvs => szObj kvs + 1

/-- Size of array members. -/
def szList : List JVal → Nat
  | [] => 0
  | x :: t => max (szJ x) (szList t) + 1

/-- Size of object members. -/
def szObj : List (Str × JVal) → Nat
  | [] => 0
  | (_, v) :: t => max (szJ v) (szObj t) + 1

end

theorem szJ_pos (v : JVal) : 1 ≤ szJ v := by
  cases v <;> simp [szJ]

theorem skipWs_eq_self (l : Str) (h : isJsonWs (l.headD 0) = false) :
    skipWs l = l := by
  cases l with
  | nil => rfl
  | cons c t =>
    simp only [List.headD_cons] at h
    unfold skipWs
    rw [List.dropWhile_cons, if_neg (by simp [h])]

theorem headD_append_of_ne_nil (l l' : List Nat) (d : Nat) (h : l ≠ []) :
    (l ++ l').headD d = l.headD d := by
  cases l with
  | nil => exact absurd rfl h
  | cons c t => rfl

theorem intRepr_ne_nil (n : Int) : intRepr n ≠ [] := by
  unfold intRepr
  split
  · simp
  · exact natDigits_ne_nil _

theorem intRepr_head (n : Int) :
    (intRepr n).headD 0 = 45 ∨ (48 ≤ (intRepr n).headD 0 ∧ (intRepr n).headD 0 ≤ 57) := by
  unfold intRepr
  split
  · left; rfl
  · right
    obtain ⟨a, t, hat⟩ : ∃ a t, natDigits n.toNat = a :: t := by
      rcases hq : natDigits n.toNat with _ | ⟨a, t⟩
      · exact absurd hq (natDigits_ne_nil _)
      · exact ⟨a, t, rfl⟩
    rw [hat]
    simp only [List.headD_cons]
    apply natDigits_digits n.toNat
    rw [hat]
    simp

theorem jsonDump_ne_nil (v : JVal) : jsonDump v ≠ [] := by
  cases v with
  | null => simp [jsonDump]
  | bool b => cases b <;> simp [jsonDump]
  | num n => simpa [jsonDump] using intRepr_ne_nil n
  | str s => simp [jsonDump]
  | arr xs => simp [jsonDump]
  | obj kvs => simp [jsonDump]

theorem isJsonWs_eq_false (c : Nat)
    (h : ¬(c = 32 ∨ c = 9 ∨ c = 10 ∨ c = 13)) : isJsonWs c = false := by
  unfold isJsonWs
  simp only [Bool.or_eq_false_iff, decide_eq_false_iff_not]
  omega

theorem jsonDump_head (v : JVal) :
    isJsonWs ((jsonDump v).headD 0) = false ∧ (jsonDump v).headD 0 ≠ 93 := by
  cases v with
  | null => exact ⟨rfl, by decide⟩
  | bool b => cases b <;> exact ⟨rfl, by decide⟩
  | num n =>
    have h := intRepr_head n
    have e : (jsonDump (JVal.num n)).headD 0 = (intRepr n).headD 0 := rfl
    rw [e]
    rcases h with h | h
    · rw [h]
      exact ⟨rfl, by decide⟩
    · exact ⟨isJsonWs_eq_false _ (by omega), by omega⟩
  | str s =>
    have e : (jsonDump (JVal.str s)).headD 0 = 34 := rfl
    rw [e]
    exact ⟨rfl, by decide⟩
  | arr xs =>
    have e : (jsonDump (JVal.arr xs)).headD 0 = 91 := rfl
    rw [e]
    exact ⟨rfl, by decide⟩
  | obj kvs =>
    have e : (jsonDump (JVal.obj kvs)).headD 0 = 123 := rfl
    rw [e]
    exact ⟨rfl, by decide⟩

/-- `r` may legally follow a complete JSON value: it is empty or starts with
a separator or closing bracket. -/
def stopOk (r : Str) : Prop :=
  r = [] ∨ r.headD 0 = 44 ∨ r.headD 0 = 93 ∨ r.headD 0 = 125

theorem stopOk_numStopOk (r : Str) (h : stopOk r) : numStopOk r := by
  rcases h with h | h | h | h
  · subst h
    exact ⟨rfl, by decide, by decide, by decide⟩
  all_goals rw [numStopOk, h]
  all_goals exact ⟨rfl, by decide, by decide, by decide⟩

theorem pyInsert_of_not_mem (acc : List (Str × JVal)) (k : Str) (v : JVal)
    (h : k ∉ acc.map Prod.fst) : pyInsert acc k v = acc ++ [(k, v)] := by
  induction acc with
  | nil => rfl
  | cons p t ih =>
    obtain ⟨k', v'⟩ := p
    simp only [List.map_cons, List.mem_cons] at h
    push_neg at h
    unfold pyInsert
    rw [if_neg (fun he => h.1 he.symm), ih h.2]
    rfl

theorem foldl_pyInsert_eq (kvs : List (Str × JVal)) :
    ∀ acc, ((acc ++ kvs).map Prod.fst).Nodup →
      kvs.foldl (fun a kv => pyInsert a kv.1 kv.2) acc = acc ++ kvs := by
  induction kvs with
  | nil => intro acc _; simp
  | cons p t ih =>
    intro acc h
    obtain ⟨k, v⟩ := p
    simp only [List.foldl_cons]
    have hsplit := List.nodup_append.mp (by simpa [List.map_append] using h)
    have hk : k ∉ acc.map Prod.fst := by
      intro hmem
      exact hsplit.2.2 hmem (by simp)
    rw [pyInsert_of_not_mem acc k v hk]
    have h' : (((acc ++ [(k, v)]) ++ t).map Prod.fst).Nodup := by
      rw [List.append_assoc, List.singleton_append]
      exact h
    rw [ih (acc ++ [(k, v)]) h']
    simp

theorem foldl_pyInsert_nil (kvs : List (Str × JVal))
    (h : (kvs.map Prod.fst).Nodup) :
    kvs.foldl (fun a kv => pyInsert a kv.1 kv.2) [] = kvs := by
  simpa using foldl_pyInsert_eq kvs [] (by simpa using h)

theorem szJ_le_length :
    ∀ (n : Nat) (v : JVal), sizeOf v ≤ n → szJ v ≤ (jsonDump v).length := by
  intro n
  induction n with
  | zero =>
    intro v hs
    exact absurd hs (by cases v <;> simp)
  | succ n ih =>
    intro v hs
    cases v with
    | null => simp [szJ, jsonDump]
    | bool b => cases b <;> simp [szJ, jsonDump]
    | num m =>
      have h := intRepr_ne_nil m
      have e : jsonDump (JVal.num m) = intRepr m := rfl
      rw [e, szJ]
      cases hq : intRepr m with
      | nil => exact absurd hq h
      | cons a t => simp
    | str s =>
      have e : jsonDump (JVal.str s) = 34 :: jsonEscape s ++ [34] := rfl
      rw [e, szJ]
      simp
    | arr xs =>
      have hsx : sizeOf xs ≤ n := by simp at hs; omega
      have aux : ∀ (l : List JVal), sizeOf l ≤ n →
          szList l ≤ (jsonDumpArr l).length + 1 := by
        intro l
        induction l with
        | nil => intro _; simp [szList, jsonDumpArr]
        | cons x t iht =>
          intro hsl
          have hx : szJ x ≤ (jsonDump x).length := ih x (by simp at hsl; omega)
          have ht : szList t ≤ (jsonDumpArr t).length + 1 :=
            iht (by simp at hsl; omega)
          have e : jsonDumpArr (x :: t) =
              jsonDump x ++ (if t.isEmpty then [] else 44 :: jsonDumpArr t) := rfl
          rw [szList, e]
          by_cases hte : t.isEmpty
          · rw [if_pos hte]
            have : szList t = 0 := by
              cases t with
              | nil => rfl
              | cons a b => simp at hte
            simp [this]
            omega
          · rw [if_neg hte]
            simp only [List.length_append, List.length_cons]
            omega
      have e : jsonDump (JVal.arr xs) = 91 :: jsonDumpArr xs ++ [93] := rfl
      rw [e, szJ]
      have := aux xs hsx
      simp
      omega
    | obj kvs =>
      have hsx : sizeOf kvs ≤ n := by simp at hs; omega
      have aux : ∀ (l : List (Str × JVal)), sizeOf l ≤ n →
          szObj l ≤ (jsonDumpObj l).length + 1 := by
        intro l
        induction l with
        | nil => intro _; simp [szObj, jsonDumpObj]
        | cons p t iht =>
          intro hsl
          obtain ⟨k, v⟩ := p
          have hx : szJ v ≤ (jsonDump v).length := ih v (by simp at hsl; omega)
          have ht : szObj t ≤ (jsonDumpObj t).length + 1 :=
            iht (by simp at hsl; omega)
          have e : jsonDumpObj ((k, v) :: t) =
              34 :: jsonEscape k ++ [34] ++ 58 :: jsonDump v ++
                (if t.isEmpty then [] else 44 :: jsonDumpObj t) := rfl
          rw [szObj, e]
          by_cases hte : t.isEmpty
          · rw [if_pos hte]
            have : szObj t = 0 := by
              cases t with
              | nil => rfl
              | cons a b => simp at hte
            simp [this]
            omega
          · rw [if_neg hte]
            simp only [List.length_append, List.length_cons]
            omega
      have e : jsonDump (JVal.obj kvs) = 123 :: jsonDumpObj kvs ++ [125] := rfl
      rw [e, szJ]
      have := aux kvs hsx
      simp
      omega

theorem parse_dump_master : ∀ fuel : Nat,
    (∀ (v : JVal) (r : Str), JVal.wf v = true → szJ v ≤ fuel → stopOk r →
      parseValF fuel (jsonDump v ++ r) = some (v, r)) ∧
    (∀ (xs : List JVal) (r : Str), xs ≠ [] → JVal.wfList xs = true →
      szList xs ≤ fuel →
      parseArrF fuel (jsonDumpArr xs ++ 93 :: r) = some (xs, r)) ∧
    (∀ (kvs : List (Str × JVal)) (r : Str), kvs ≠ [] → JVal.wfObj kvs = true →
      szObj kvs ≤ fuel →
      parseObjF fuel (jsonDumpObj kvs ++ 125 :: r) = some (kvs, r)) := by
  intro fuel
  induction fuel with
  | zero =>
    refine ⟨?_, ?_, ?_⟩
    · intro v r _ hsz _
      exact absurd hsz (by have := szJ_pos v; omega)
    · intro xs r hne _ hsz
      cases xs with
      | nil => exact absurd rfl hne
      | cons x t => rw [szList] at hsz; omega
    · intro kvs r hne _ hsz
      cases kvs with
      | nil => exact absurd rfl hne
      | cons p t =>
        obtain ⟨k, v⟩ := p
        rw [szObj] at hsz
        omega
  | succ fuel ih =>
    obtain ⟨ihA, ihB, ihC⟩ := ih
    refine ⟨?_, ?_, ?_⟩
    · -- values
      intro v r hwf hsz hstop
      cases v with
      | null =>
        show parseValF (fuel + 1) ([110, 117, 108, 108] ++ r) = _
        simp only [List.cons_append, List.nil_append]
        rw [parseValF, if_pos rfl, if_pos (by rfl)]
        rfl
      | bool b =>
        cases b with
        | true =>
          show parseValF (fuel + 1) ([116, 114, 117, 101] ++ r) = _
          simp only [List.cons_append, List.nil_append]
          rw [parseValF, if_neg (by omega), if_pos rfl, if_pos (by rfl)]
          rfl
        | false =>
          show parseValF (fuel + 1) ([102, 97, 108, 115, 101] ++ r) = _
          simp only [List.cons_append, List.nil_append]
          rw [parseValF, if_neg (by omega), if_neg (by omega), if_pos rfl,
            if_pos (by rfl)]
          rfl
      | num m =>
        obtain ⟨a, t, hat⟩ : ∃ a t, intRepr m = a :: t := by
          rcases hq : intRepr m with _ | ⟨a, t⟩
          · exact absurd hq (intRepr_ne_nil m)
          · exact ⟨a, t, rfl⟩
        have ha : a = 45 ∨ (48 ≤ a ∧ a ≤ 57) := by
          have := intRepr_head m
          rw [hat] at this
          simpa using this
        have e : jsonDump (JVal.num m) ++ r = a :: (t ++ r) := by
          rw [show jsonDump (JVal.num m) = intRepr m from rfl, hat]
          rfl
        rw [e, parseValF, if_neg (by omega), if_neg (by omega), if_neg (by omega),
          if_neg (by omega), if_neg (by omega), if_neg (by omega)]
        have e₂ : a :: (t ++ r) = intRepr m ++ r := by rw [hat]; rfl
        rw [e₂, parseNum_intRepr m r (stopOk_numStopOk r hstop)]
        rfl
      | str s =>
        have hwfs : WfStr s := by simpa [JVal.wf] using hwf
        have e : jsonDump (JVal.str s) ++ r = 34 :: (jsonEscape s ++ 34 :: r) := by
          show (34 :: jsonEscape s ++ [34]) ++ r = _
          simp
        have hlen : s.length + 1 ≤ (jsonEscape s ++ 34 :: r).length := by
          have := length_le_jsonEscape s
          simp only [List.length_append, List.length_cons]
          omega
        rw [e, parseValF, if_neg (by omega), if_neg (by omega), if_neg (by omega),
          if_pos rfl]
        rw [parseStrBody_jsonEscape s _ r hwfs hlen]
        rfl
      | arr xs =>
        cases xs with
        | nil =>
          have e : jsonDump (JVal.arr []) ++ r = 91 :: 93 :: r := by
            show (91 :: jsonDumpArr [] ++ [93]) ++ r = _
            rfl
          rw [e, parseValF, if_neg (by omega), if_neg (by omega), if_neg (by omega),
            if_neg (by omega), if_pos rfl]
          rw [skipWs_eq_self _ (by rfl), if_pos (by rfl)]
          rfl
        | cons x xs' =>
          have hwfl : JVal.wfList (x :: xs') = true := by
            simpa [JVal.wf] using hwf
          have hszl : szList (x :: xs') ≤ fuel := by
            rw [show szJ (JVal.arr (x :: xs')) = szList (x :: xs') + 1 from rfl]
              at hsz
            omega
          have hdnn : jsonDumpArr (x :: xs') ≠ [] := by
            have e : jsonDumpArr (x :: xs') =
                jsonDump x ++ (if xs'.isEmpty then [] else 44 :: jsonDumpArr xs') :=
              rfl
            rw [e]
            simp [jsonDump_ne_nil x]
          have e : jsonDump (JVal.arr (x :: xs')) ++ r =
              91 :: (jsonDumpArr (x :: xs') ++ 93 :: r) := by
            show (91 :: jsonDumpArr (x :: xs') ++ [93]) ++ r = _
            simp
          have hheadeq : (jsonDumpArr (x :: xs') ++ 93 :: r).headD 0
              = (jsonDump x).headD 0 := by
            rw [headD_append_of_ne_nil _ _ _ hdnn]
            have e₃ : jsonDumpArr (x :: xs') = jsonDump x ++
                (if xs'.isEmpty then [] else 44 :: jsonDumpArr xs') := rfl
            rw [e₃, headD_append_of_ne_nil _ _ _ (jsonDump_ne_nil x)]
          have hws : isJsonWs ((jsonDumpArr (x :: xs') ++ 93 :: r).headD 0)
              = false := by
            rw [hheadeq]
            exact (jsonDump_head x).1
          have hne93 : (jsonDumpArr (x :: xs') ++ 93 :: r).headD 0 ≠ 93 := by
            rw [hheadeq]
            exact (jsonDump_head x).2
          rw [e, parseValF, if_neg (by omega), if_neg (by omega), if_neg (by omega),
            if_neg (by omega), if_pos rfl]
          rw [skipWs_eq_self _ hws, if_neg hne93]
          rw [ihB (x :: xs') r (by simp) hwfl hszl]
          rfl
      | obj kvs =>
        cases kvs with
        | nil =>
          have e : jsonDump (JVal.obj []) ++ r = 123 :: 125 :: r := by
            show (123 :: jsonDumpObj [] ++ [125]) ++ r = _
            rfl
          rw [e, parseValF, if_neg (by omega), if_neg (by omega), if_neg (by omega),
            if_neg (by omega), if_neg (by omega), if_pos rfl]
          rw [skipWs_eq_self _ (by rfl), if_pos (by rfl)]
          rfl
        | cons p kvs' =>
          obtain ⟨k, v⟩ := p
          have hnodup : (((k, v) :: kvs').map Prod.fst).Nodup := by
            have h' := hwf
            simp only [JVal.wf, Bool.and_eq_true] at h'
            simpa using h'.1
          have hwfo : JVal.wfObj ((k, v) :: kvs') = true := by
            have h' := hwf
            simp only [JVal.wf, Bool.and_eq_true] at h'
            exact h'.2
          have hszo : szObj ((k, v) :: kvs') ≤ fuel := by
            rw [show szJ (JVal.obj ((k, v) :: kvs'))
              = szObj ((k, v) :: kvs') + 1 from rfl] at hsz
            omega
          have e : jsonDump (JVal.obj ((k, v) :: kvs')) ++ r =
              123 :: (jsonDumpObj ((k, v) :: kvs') ++ 125 :: r) := by
            show (123 :: jsonDumpObj ((k, v) :: kvs') ++ [125]) ++ r = _
            simp
          have hobjhead : (jsonDumpObj ((k, v) :: kvs') ++ 125 :: r).headD 0
              = 34 := by
            have e₂ : jsonDumpObj ((k, v) :: kvs') = 34 :: (jsonEscape k ++ [34] ++
                58 :: jsonDump v ++
                (if kvs'.isEmpty then [] else 44 :: jsonDumpObj kvs')) := rfl
            rw [e₂]
            rfl
          have hws : isJsonWs ((jsonDumpObj ((k, v) :: kvs') ++ 125 :: r).headD 0)
              = false := by
            rw [hobjhead]
            rfl
          have hne : (jsonDumpObj ((k, v) :: kvs') ++ 125 :: r).headD 0 ≠ 125 := by
            rw [hobjhead]
            decide
          rw [e, parseValF, if_neg (by omega), if_neg (by omega), if_neg (by omega),
            if_neg (by omega), if_neg (by omega), if_pos rfl]
          rw [skipWs_eq_self _ hws, if_neg hne]
          rw [ihC ((k, v) :: kvs') r (by simp) hwfo hszo]
          simp only [Option.map_some']
          rw [foldl_pyInsert_nil ((k, v) :: kvs') hnodup]
    · -- array members
      intro xs r hne hwf hsz
      cases xs with
      | nil => exact absurd rfl hne
      | cons x xs' =>
        have hwfx : JVal.wf x = true := by
          simp only [JVal.wfList, Bool.and_eq_true] at hwf
          exact hwf.1
        have hwft : JVal.wfList xs' = true := by
          simp only [JVal.wfList, Bool.and_eq_true] at hwf
          exact hwf.2
        have hszx : szJ x ≤ fuel := by rw [szList] at hsz; omega
        have hszt : szList xs' ≤ fuel := by rw [szList] at hsz; omega
        by_cases hxe : xs' = []
        · subst hxe
          have e : jsonDumpArr [x] ++ 93 :: r = jsonDump x ++ 93 :: r := by
            show (jsonDump x ++ (if ([] : List JVal).isEmpty then []
              else 44 :: jsonDumpArr [])) ++ 93 :: r = _
            simp
          rw [e, parseArrF, ihA x (93 :: r) hwfx hszx (by right; right; left; rfl)]
          simp only [Option.some_bind]
          rw [skipWs_eq_self _ (by rfl), if_neg (by simp), if_pos (by rfl)]
          rfl
        · have e : jsonDumpArr (x :: xs') ++ 93 :: r =
              jsonDump x ++ 44 :: (jsonDumpArr xs' ++ 93 :: r) := by
            have e₂ : jsonDumpArr (x :: xs') = jsonDump x ++
                (if xs'.isEmpty then [] else 44 :: jsonDumpArr xs') := rfl
            rw [e₂, if_neg (by simpa using hxe)]
            simp
          have hdnn : jsonDumpArr xs' ≠ [] := by
            cases xs' with
            | nil => exact absurd rfl hxe
            | cons y ys =>
              have e₃ : jsonDumpArr (y :: ys) = jsonDump y ++
                  (if ys.isEmpty then [] else 44 :: jsonDumpArr ys) := rfl
              rw [e₃]
              simp [jsonDump_ne_nil y]
          have hws2 : isJsonWs ((jsonDumpArr xs' ++ 93 :: r).headD 0) = false := by
            rw [headD_append_of_ne_nil _ _ _ hdnn]
            cases xs' with
            | nil => exact absurd rfl hxe
            | cons y ys =>
              have e₃ : (jsonDumpArr (y :: ys)).headD 0 = (jsonDump y).headD 0 := by
                have e₄ : jsonDumpArr (y :: ys) = jsonDump y ++
                    (if ys.isEmpty then [] else 44 :: jsonDumpArr ys) := rfl
                rw [e₄, headD_append_of_ne_nil _ _ _ (jsonDump_ne_nil y)]
              rw [e₃]
              exact (jsonDump_head y).1
          rw [e, parseArrF, ihA x _ hwfx hszx (by right; left; rfl)]
          simp only [Option.some_bind]
          rw [skipWs_eq_self _ (by rfl), if_pos (by rfl)]
          simp only [List.drop_succ_cons, List.drop_zero]
          rw [skipWs_eq_self _ hws2]
          rw [ihB xs' r hxe hwft hszt]
          rfl
    · -- object members
      intro kvs r hne hwf hsz
      cases kvs with
      | nil => exact absurd rfl hne
      | cons p kvs' =>
        obtain ⟨k, v⟩ := p
        have hwfk : WfStr k := by
          simp only [JVal.wfObj, Bool.and_eq_true] at hwf
          simpa using hwf.1.1
        have hwfv : JVal.wf v = true := by
          simp only [JVal.wfObj, Bool.and_eq_true] at hwf
          exact hwf.1.2
        have hwft : JVal.wfObj kvs' = true := by
          simp only [JVal.wfObj, Bool.and_eq_true] at hwf
          exact hwf.2
        have hszv : szJ v ≤ fuel := by rw [szObj] at hsz; omega
        have hszt : szObj kvs' ≤ fuel := by rw [szObj] at hsz; omega
        have hvws : ∀ X : Str, isJsonWs ((jsonDump v ++ X).headD 0) = false := by
          intro X
          rw [headD_append_of_ne_nil _ _ _ (jsonDump_ne_nil v)]
          exact (jsonDump_head v).1
        by_cases hke : kvs' = []
        · subst hke
          have e : jsonDumpObj [(k, v)] ++ 125 :: r =
              34 :: (jsonEscape k ++ 34 :: (58 :: (jsonDump v ++ 125 :: r))) := by
            have e₂ : jsonDumpObj [(k, v)] = 34 :: jsonEscape k ++ [34] ++
                58 :: jsonDump v ++
                (if ([] : List (Str × JVal)).isEmpty then []
                  else 44 :: jsonDumpObj []) := rfl
            rw [e₂]
            simp
          have hlen : k.length + 1 ≤
              (jsonEscape k ++ 34 :: (58 :: (jsonDump v ++ 125 :: r))).length := by
            have := length_le_jsonEscape k
            simp only [List.length_append, List.length_cons]
            omega
          rw [e, parseObjF, if_pos (by rfl)]
          simp only [List.drop_succ_cons, List.drop_zero]
          rw [parseStrBody_jsonEscape k _ _ hwfk hlen]
          simp only [Option.some_bind]
          rw [skipWs_eq_self _ (by rfl), if_pos (by rfl)]
          simp only [List.drop_succ_cons, List.drop_zero]
          rw [skipWs_eq_self _ (hvws _)]
          rw [ihA v _ hwfv hszv (by right; right; right; rfl)]
          simp only [Option.some_bind]
          rw [skipWs_eq_self _ (by rfl), if_neg (by simp), if_pos (by rfl)]
          rfl
        · have hkeb : kvs'.isEmpty = false := by
            cases kvs' with
            | nil => exact absurd rfl hke
            | cons q qs => rfl
          have e : jsonDumpObj ((k, v) :: kvs') ++ 125 :: r =
              34 :: (jsonEscape k ++ 34 :: (58 :: (jsonDump v ++
                44 :: (jsonDumpObj kvs' ++ 125 :: r)))) := by
            have e₂ : jsonDumpObj ((k, v) :: kvs') = 34 :: jsonEscape k ++ [34] ++
                58 :: jsonDump v ++
                (if kvs'.isEmpty then [] else 44 :: jsonDumpObj kvs') := rfl
            rw [e₂, hkeb]
            simp
          have hlen : k.length + 1 ≤ (jsonEscape k ++ 34 :: (58 :: (jsonDump v ++
              44 :: (jsonDumpObj kvs' ++ 125 :: r)))).length := by
            have := length_le_jsonEscape k
            simp only [List.length_append, List.length_cons]
            omega
          have hohead : (jsonDumpObj kvs' ++ 125 :: r).headD 0 = 34 := by
            cases kvs' with
            | nil => exact absurd rfl hke
            | cons q qs =>
              obtain ⟨k₂, v₂⟩ := q
              have e₃ : jsonDumpObj ((k₂, v₂) :: qs) = 34 :: (jsonEscape k₂ ++
                  [34] ++ 58 :: jsonDump v₂ ++
                  (if qs.isEmpty then [] else 44 :: jsonDumpObj qs)) := rfl
              rw [e₃]
              rfl
          have hows : isJsonWs ((jsonDumpObj kvs' ++ 125 :: r).headD 0)
              = false := by
            rw [hohead]
            rfl
          rw [e, parseObjF, if_pos (by rfl)]
          simp only [List.drop_succ_cons, List.drop_zero]
          rw [parseStrBody_jsonEscape k _ _ hwfk hlen]
          simp only [Option.some_bind]
          rw [skipWs_eq_self _ (by rfl), if_pos (by rfl)]
          simp only [List.drop_succ_cons, List.drop_zero]
          rw [skipWs_eq_self _ (hvws _)]
          rw [ihA v _ hwfv hszv (by right; left; rfl)]
          simp only [Option.some_bind]
          rw [skipWs_eq_self _ (by rfl), if_pos (by rfl)]
          simp only [List.drop_succ_cons, List.drop_zero]
          rw [skipWs_eq_self _ hows]
          rw [ihC kvs' r hke hwft hszt]
          rfl

/-- The parser–printer round trip at the top level: `json.loads` applied to
the compact `json.dumps` output returns the original (well-formed) value. -/
theorem jsonLoads_jsonDump (v : JVal) (h : JVal.wf v = true) :
    jsonLoads (jsonDump v) = some v := by
  unfold jsonLoads
  have hsz : szJ v ≤ (jsonDump v).length + 1 := by
    have := szJ_le_length (sizeOf v) v le_rfl
    omega
  rw [skipWs_eq_self _ (jsonDump_head v).1]
  have hp := (parse_dump_master ((jsonDump v).length + 1)).1 v [] h hsz (Or.inl rfl)
  rw [show jsonDump v ++ [] = jsonDump v from by simp] at hp
  rw [hp]
  rfl

theorem hexDigitChar_le (n : Nat) (h : n < 16) : hexDigitChar n ≤ 102 := by
  unfold hexDigitChar
  split <;> omega

theorem escapeChar_wf (c : Nat) (h : ValidCp c) : ∀ x ∈ escapeChar c, ValidCp x := by
  intro x hx
  have h16a := hexDigitChar_le (c / 16)
  have h16b := hexDigitChar_le (c % 16) (by omega)
  unfold escapeChar at hx
  split at hx
  · simp at hx
    unfold ValidCp
    omega
  · split at hx
    · simp at hx
      unfold ValidCp
      omega
    · split at hx
      · rename_i h34 h92 hlt
        have h16a' := h16a (by omega)
        split at hx
        · simp at hx
          unfold ValidCp
          omega
        · split at hx
          · simp at hx
            unfold ValidCp
            omega
          · split at hx
            · simp at hx
              unfold ValidCp
              omega
            · split at hx
              · simp at hx
                unfold ValidCp
                omega
              · split at hx
                · simp at hx
                  unfold ValidCp
                  omega
                · simp at hx
                  unfold ValidCp
                  omega
      · simp at hx
        subst hx
        exact h

theorem jsonEscape_wf (s : Str) (h : WfStr s) : WfStr (jsonEscape s) := by
  induction s with
  | nil => intro x hx; simp [jsonEscape] at hx
  | cons c t ih =>
    intro x hx
    rw [jsonEscape_cons] at hx
    rcases List.mem_append.mp hx with hm | hm
    · exact escapeChar_wf c (h c (by simp)) x hm
    · exact ih (fun y hy => h y (by simp [hy])) x hm

theorem intRepr_wf (n : Int) : WfStr (intRepr n) := by
  intro x hx
  unfold intRepr at hx
  split at hx
  · simp at hx
    rcases hx with hx | hx
    · subst hx
      exact Or.inl (by omega)
    · have := natDigits_digits n.natAbs x hx
      exact Or.inl (by omega)
  · have := natDigits_digits n.toNat x hx
    exact Or.inl (by omega)

theorem jsonDump_wf :
    ∀ (n : Nat) (v : JVal), sizeOf v ≤ n → JVal.wf v = true →
      WfStr (jsonDump v) := by
  intro n
  induction n with
  | zero =>
    intro v hs
    exact absurd hs (by cases v <;> simp)
  | succ n ih =>
    intro v hs hwf
    cases v with
    | null => intro x hx; simp [jsonDump] at hx; rcases hx with rfl | rfl | rfl | rfl
        <;> exact Or.inl (by omega)
    | bool b =>
      cases b
      · intro x hx
        simp [jsonDump] at hx
        rcases hx with rfl | rfl | rfl | rfl | rfl <;> exact Or.inl (by omega)
      · intro x hx
        simp [jsonDump] at hx
        rcases hx with rfl | rfl | rfl | rfl <;> exact Or.inl (by omega)
    | num m =>
      intro x hx
      exact intRepr_wf m x hx
    | str s =>
      have hwfs : WfStr s := by simpa [JVal.wf] using hwf
      intro x hx
      have e : jsonDump (JVal.str s) = 34 :: jsonEscape s ++ [34] := rfl
      rw [e] at hx
      simp at hx
      rcases hx with rfl | hx | rfl
      · exact Or.inl (by omega)
      · exact jsonEscape_wf s hwfs x hx
      · exact Or.inl (by omega)
    | arr xs =>
      have hsx : sizeOf xs ≤ n := by simp at hs; omega
      have hwfl : JVal.wfList xs = true := by simpa [JVal.wf] using hwf
      have aux : ∀ (l : List JVal), sizeOf l ≤ n → JVal.wfList l = true →
          ∀ x ∈ jsonDumpArr l, ValidCp x := by
        intro l
        induction l with
        | nil => intro _ _ x hx; simp [jsonDumpArr] at hx
        | cons y t iht =>
          intro hsl hwl x hx
          simp only [JVal.wfList, Bool.and_eq_true] at hwl
          have e : jsonDumpArr (y :: t) =
              jsonDump y ++ (if t.isEmpty then [] else 44 :: jsonDumpArr t) := rfl
          rw [e] at hx
          rcases List.mem_append.mp hx with hm | hm
          · exact ih y (by simp at hsl; omega) hwl.1 x hm
          · split at hm
            · simp at hm
            · simp at hm
              rcases hm with rfl | hm
              · exact Or.inl (by omega)
              · exact iht (by simp at hsl; omega) hwl.2 x hm
      intro x hx
      have e : jsonDump (JVal.arr xs) = 91 :: jsonDumpArr xs ++ [93] := rfl
      rw [e] at hx
      simp at hx
      rcases hx with rfl | hx | rfl
      · exact Or.inl (by omega)
      · exact aux xs hsx hwfl x hx
      · exact Or.inl (by omega)
    | obj kvs =>
      have hsx : sizeOf kvs ≤ n := by simp at hs; omega
      have hwfo : JVal.wfObj kvs = true := by
        have h' := hwf
        simp only [JVal.wf, Bool.and_eq_true] at h'
        exact h'.2
      have aux : ∀ (l : List (Str × JVal)), sizeOf l ≤ n → JVal.wfObj l = true →
          ∀ x ∈ jsonDumpObj l, ValidCp x := by
        intro l
        induction l with
        | nil => intro _ _ x hx; simp [jsonDumpObj] at hx
        | cons p t iht =>
          intro hsl hwl x hx
          obtain ⟨k, y⟩ := p
          simp only [JVal.wfObj, Bool.and_eq_true] at hwl
          have hwk : WfStr k := by simpa using hwl.1.1
          have e : jsonDumpObj ((k, y) :: t) = 34 :: jsonEscape k ++ [34] ++
              58 :: jsonDump y ++
              (if t.isEmpty then [] else 44 :: jsonDumpObj t) := rfl
          rw [e] at hx
          have hA := jsonEscape_wf k hwk
          have hB := ih y (by simp at hsl; omega) hwl.1.2
          have hC := iht (by simp at hsl; omega) hwl.2
          split at hx <;>
            simp only [List.cons_append, List.append_assoc, List.singleton_append,
              List.append_nil, List.mem_cons, List.mem_append] at hx <;>
            casesm* _ ∨ _ <;>
            first
              | exact hA x (by assumption)
              | exact hB x (by assumption)
              | exact hC x (by assumption)
              | (unfold ValidCp; omega)
              | simp_all
      intro x hx
      have e : jsonDump (JVal.obj kvs) = 123 :: jsonDumpObj kvs ++ [125] := rfl
      rw [e] at hx
      simp at hx
      rcases hx with rfl | hx | rfl
      · exact Or.inl (by omega)
      · exact aux kvs hsx hwfo x hx
      · exact Or.inl (by omega)

/-- The wrapper key `"base64"`. -/
def b64Key : Str := pyStr "base64"

/-- `_decode_value` (rebuild_leveldb_from_json.py): UTF-8 decode, wrapping
undecodable bytes as `{"base64": ...}`; on text, attempt a JSON parse and
keep the plain string on parse failure.  Total, as in the source. -/
def decodeValue (raw : Bytes) : JVal :=
  match utf8Decode raw with
  | none => JVal.obj [(b64Key, JVal.str (b64encode raw))]
  | some text =>
    match jsonLoads text with
    | some v => v
    | none => JVal.str text

/-- `value["base64"]` when it is a string. -/
def wrapperPayload (v : JVal) : Option Str :=
  match v with
  | .obj kvs =>
    match pyLookup kvs b64Key with
    | some (.str s) => some s
    | _ => none
  | _ => none

/-- `_looks_like_base64_wrapper`: a dict whose key set is exactly
`{"base64"}` and whose `"base64"` value is a string. -/
def looksLikeBase64Wrapper (v : JVal) : Bool :=
  match v with
  | .obj kvs =>
    !kvs.isEmpty && kvs.all (fun kv => kv.1 == b64Key) && (wrapperPayload v).isSome
  | _ => false

/-- `_encode_value`: base64-unwrap a wrapper (`none` models the
`binascii.Error` Python raises on undecodable base64), encode a plain string
as UTF-8, JSON-serialize everything else compactly. -/
def encodeValue (v : JVal) : Option Bytes :=
  if looksLikeBase64Wrapper v then (wrapperPayload v).bind b64decode
  else
    match v with
    | .str s => some (utf8Encode s)
    | _ => some (utf8Encode (jsonDump v))

/-- `_values_differ`: raw inequality refined by decoded-value inequality. -/
def valuesDiffer (left right : Bytes) : Bool :=
  if left = right then false
  else !(JVal.beq (decodeValue left) (decodeValue right))

/-- The value is a Python `str`. -/
def isStrB : JVal → Bool
  | .str _ => true
  | _ => false

example : decodeValue [255] = JVal.obj [(b64Key, JVal.str (pyStr "/w=="))] := by
  decide

example : encodeValue (decodeValue [255]) = some [255] := by decide

example : decodeValue (pyStr "12") = JVal.num 12 := by decide

example : valuesDiffer (pyStr "[1, 2]") (pyStr "[1,2]") = false := by decide

example : valuesDiffer (pyStr "[1, 2]") (pyStr "[1,3]") = true := by decide

theorem decodeValue_of_not_utf8 (raw : Bytes) (h : utf8Decode raw = none) :
    decodeValue raw = JVal.obj [(b64Key, JVal.str (b64encode raw))] := by
  unfold decodeValue
  rw [h]

theorem looksLike_wrapper_single (s : Str) :
    looksLikeBase64Wrapper (JVal.obj [(b64Key, JVal.str s)]) = true := rfl

theorem wrapperPayload_single (s : Str) :
    wrapperPayload (JVal.obj [(b64Key, JVal.str s)]) = some s := rfl

theorem encodeValue_wrapper (v : JVal) (s : Str)
    (hw : looksLikeBase64Wrapper v = true) (hp : wrapperPayload v = some s) :
    encodeValue v = b64decode s := by
  unfold encodeValue
  rw [if_pos hw, hp]
  rfl

theorem encodeValue_str (s : Str) :
    encodeValue (JVal.str s) = some (utf8Encode s) := by
  unfold encodeValue
  rw [if_neg (by simp [looksLikeBase64Wrapper])]

theorem encodeValue_plain (v : JVal) (hw : looksLikeBase64Wrapper v = false)
    (hs : isStrB v = false) :
    encodeValue v = some (utf8Encode (jsonDump v)) := by
  unfold encodeValue
  rw [if_neg (by simp [hw])]
  cases v with
  | str s => simp [isStrB] at hs
  | null => rfl
  | bool b => rfl
  | num n => rfl
  | arr xs => rfl
  | obj kvs => rfl

/-- The non-UTF-8 pass-through: decode then encode of undecodable bytes is
the identity. -/
theorem encode_decode_of_not_utf8 (raw : Bytes) (hB : isBytes raw)
    (hU : utf8Decode raw = none) : encodeValue (decodeValue raw) = some raw := by
  rw [decodeValue_of_not_utf8 raw hU,
    encodeValue_wrapper _ (b64encode raw) (looksLike_wrapper_single _)
      (wrapperPayload_single _)]
  exact b64decode_b64encode raw hB

/-- For a well-formed non-string non-wrapper value, decode of encode is the
identity. -/
theorem decode_encode_of_plain (v : JVal) (hwf : JVal.wf v = true) :
    decodeValue (utf8Encode (jsonDump v)) = v := by
  unfold decodeValue
  rw [utf8Decode_utf8Encode _ (jsonDump_wf (sizeOf v) v le_rfl hwf)]
  show (match jsonLoads (jsonDump v) with
    | some w => w
    | none => JVal.str (jsonDump v)) = v
  rw [jsonLoads_jsonDump v hwf]

theorem looksLike_obj_iff (kvs : List (Str × JVal)) :
    looksLikeBase64Wrapper (JVal.obj kvs) = true ↔
      (kvs ≠ [] ∧ (∀ k ∈ kvs.map Prod.fst, k = b64Key) ∧
        ∃ s, pyLookup kvs b64Key = some (JVal.str s)) := by
  unfold looksLikeBase64Wrapper
  rw [Bool.and_eq_true, Bool.and_eq_true]
  constructor
  · rintro ⟨⟨hne, hall⟩, hsome⟩
    refine ⟨?_, ?_, ?_⟩
    · intro hcon
      subst hcon
      simp at hne
    · intro k hk
      simp only [List.all_eq_true] at hall
      obtain ⟨⟨k', v'⟩, hmem, hkeq⟩ := List.mem_map.mp hk
      have := hall (k', v') hmem
      simp only [beq_iff_eq] at this
      rw [← hkeq]
      exact this
    · have hsome' : (match pyLookup kvs b64Key with
          | some (JVal.str s) => some s
          | _ => none).isSome = true := hsome
      rcases hq : pyLookup kvs b64Key with _ | v
      · rw [hq] at hsome'
        simp at hsome'
      · cases v with
        | str s => exact ⟨s, rfl⟩
        | null => rw [hq] at hsome'; simp at hsome'
        | bool b => rw [hq] at hsome'; simp at hsome'
        | num n => rw [hq] at hsome'; simp at hsome'
        | arr xs => rw [hq] at hsome'; simp at hsome'
        | obj o => rw [hq] at hsome'; simp at hsome'
  · rintro ⟨hne, hall, s, hs⟩
    refine ⟨⟨?_, ?_⟩, ?_⟩
    · simpa using hne
    · simp only [List.all_eq_true]
      intro kv hmem
      simp only [beq_iff_eq]
      exact hall kv.1 (List.mem_map.mpr ⟨kv, hmem, rfl⟩)
    · show (match pyLookup kvs b64Key with
        | some (JVal.str s) => some s
        | _ => none).isSome = true
      rw [hs]
      rfl

/-- C1, amended: the round-trip law of the ValueCodec to its true extent:
(1) non-UTF8 bytes survive decode→encode exactly, as claimed;
(2) the law `encode (decode (encode v)) = encode v` holds for strings that
are not themselves valid JSON text;
(3) it holds for every well-formed non-string, non-wrapper value (for which
decode∘encode is even the identity); and
(4) it holds for a base64 wrapper whose payload decodes to non-UTF8 bytes.
The unrestricted law of the claim is refuted by
`valueCodec_roundTrip_counterexample`. -/
theorem valueCodec_roundTrip_amended :
    (∀ raw : Bytes, isBytes raw → utf8Decode raw = none →
      encodeValue (decodeValue raw) = some raw) ∧
    (∀ s : Str, WfStr s → jsonLoads s = none →
      (encodeValue (JVal.str s)).bind (fun b => encodeValue (decodeValue b))
        = encodeValue (JVal.str s)) ∧
    (∀ v : JVal, JVal.wf v = true → isStrB v = false →
      looksLikeBase64Wrapper v = false →
      (encodeValue v).bind (fun b => encodeValue (decodeValue b))
        = encodeValue v) ∧
    (∀ (v : JVal) (s : Str) (b : Bytes), looksLikeBase64Wrapper v = true →
      wrapperPayload v = some s → b64decode s = some b → isBytes b →
      utf8Decode b = none →
      (encodeValue v).bind (fun bb => encodeValue (decodeValue bb))
        = encodeValue v) := by
  refine ⟨encode_decode_of_not_utf8, ?_, ?_, ?_⟩
  · intro s hwf hnl
    rw [encodeValue_str]
    simp only [Option.some_bind]
    have hd : decodeValue (utf8Encode s) = JVal.str s := by
      unfold decodeValue
      rw [utf8Decode_utf8Encode s hwf]
      show (match jsonLoads s with
        | some w => w
        | none => JVal.str s) = JVal.str s
      rw [hnl]
    rw [hd, encodeValue_str]
  · intro v hwf hs hw
    rw [encodeValue_plain v hw hs]
    simp only [Option.some_bind]
    rw [decode_encode_of_plain v hwf, encodeValue_plain v hw hs]
  · intro v s b hw hp hb hB hU
    rw [encodeValue_wrapper v s hw hp, hb]
    simp only [Option.some_bind]
    rw [encode_decode_of_not_utf8 b hB hU]

/-- Witness: the amended round-trip law at concrete inputs — the raw byte
`0xFF`, the non-JSON string `"hello"`, the array `[1]`, and the wrapper
`{"base64": "/w=="}`. -/
theorem valueCodec_roundTrip_amended_witness :
    encodeValue (decodeValue [255]) = some [255] ∧
    (encodeValue (JVal.str (pyStr "hello"))).bind
      (fun b => encodeValue (decodeValue b)) = encodeValue (JVal.str (pyStr "hello")) ∧
    (encodeValue (JVal.arr [JVal.num 1])).bind
      (fun b => encodeValue (decodeValue b)) = encodeValue (JVal.arr [JVal.num 1]) ∧
    (encodeValue (JVal.obj [(b64Key, JVal.str (pyStr "/w=="))])).bind
      (fun bb => encodeValue (decodeValue bb))
      = encodeValue (JVal.obj [(b64Key, JVal.str (pyStr "/w=="))]) :=
  ⟨valueCodec_roundTrip_amended.1 [255] (by decide) (by decide),
   valueCodec_roundTrip_amended.2.1 (pyStr "hello") (by decide) (by decide),
   valueCodec_roundTrip_amended.2.2.1 (JVal.arr [JVal.num 1]) (by decide)
     (by decide) (by decide),
   valueCodec_roundTrip_amended.2.2.2 (JVal.obj [(b64Key, JVal.str (pyStr "/w=="))])
     (pyStr "/w==") [255] (by decide) (by decide) (by decide) (by decide)
     (by decide)⟩

/-- Counterexample to the claim's unrestricted round-trip law: for the
representable string value `"[1, 2]"`, `encode(decode(encode(v)))` is the
compact `b"[1,2]"` while `encode(v)` is `b"[1, 2]"`. -/
theorem valueCodec_roundTrip_counterexample :
    (encodeValue (JVal.str (pyStr "[1, 2]"))).bind
        (fun b => encodeValue (decodeValue b))
      ≠ encodeValue (JVal.str (pyStr "[1, 2]")) := by decide

/-- C5: the DiffReporter treats two byte strings as equal exactly when the
raw bytes are equal or the decoded values are equal.  The embedded
`decodeValue` is total, as `_decode_value` is in the source (both decode
failures are caught and converted to values), so the claim's decode-failure
clause is vacuously satisfied. -/
theorem diffReporter_value_equality (a b : Bytes) :
    valuesDiffer a b = false ↔ (a = b ∨ decodeValue a = decodeValue b) := by
  unfold valuesDiffer
  by_cases h : a = b
  · simp [h]
  · rw [if_neg h]
    simp only [Bool.not_eq_false', JVal.beq_iff_eq]
    constructor
    · intro he
      exact Or.inr he
    · intro he
      rcases he with he | he
      · exact absurd he h
      · exact he

/-- C9: `_encode_value` base64-decodes exactly the dicts whose key set is
`{"base64"}` with a string value; every other dict is compactly
JSON-serialized and UTF-8 encoded. -/
theorem encode_wrapper_strictness (kvs : List (Str × JVal)) :
    (∀ s : Str, kvs ≠ [] → (∀ k ∈ kvs.map Prod.fst, k = b64Key) →
      pyLookup kvs b64Key = some (JVal.str s) →
      encodeValue (JVal.obj kvs) = b64decode s) ∧
    (¬(kvs ≠ [] ∧ (∀ k ∈ kvs.map Prod.fst, k = b64Key) ∧
        ∃ s, pyLookup kvs b64Key = some (JVal.str s)) →
      encodeValue (JVal.obj kvs) = some (utf8Encode (jsonDump (JVal.obj kvs)))) := by
  constructor
  · intro s hne hall hlook
    have hw : looksLikeBase64Wrapper (JVal.obj kvs) = true :=
      (looksLike_obj_iff kvs).mpr ⟨hne, hall, s, hlook⟩
    have hp : wrapperPayload (JVal.obj kvs) = some s := by
      show (match pyLookup kvs b64Key with
        | some (JVal.str s) => some s
        | _ => none) = some s
      rw [hlook]
    exact encodeValue_wrapper _ s hw hp
  · intro hshape
    have hw : looksLikeBase64Wrapper (JVal.obj kvs) = false := by
      rcases hq : looksLikeBase64Wrapper (JVal.obj kvs) with _ | _
      · rfl
      · exact absurd ((looksLike_obj_iff kvs).mp hq) hshape
    exact encodeValue_plain _ hw rfl

/-- Witness: the wrapper `{"base64": "aGk="}` is base64-decoded, while the
two-key dict `{"base64": "aGk=", "x": 1}` is JSON-serialized. -/
theorem encode_wrapper_strictness_witness :
    encodeValue (JVal.obj [(b64Key, JVal.str (pyStr "aGk="))])
      = b64decode (pyStr "aGk=") ∧
    encodeValue (JVal.obj [(b64Key, JVal.str (pyStr "aGk=")), (pyStr "x", JVal.num 1)])
      = some (utf8Encode (jsonDump (JVal.obj
          [(b64Key, JVal.str (pyStr "aGk=")), (pyStr "x", JVal.num 1)]))) :=
  ⟨(encode_wrapper_strictness [(b64Key, JVal.str (pyStr "aGk="))]).1
      (pyStr "aGk=") (by decide) (by decide) (by decide),
   (encode_wrapper_strictness
      [(b64Key, JVal.str (pyStr "aGk=")), (pyStr "x", JVal.num 1)]).2
      (by
        rintro ⟨-, hall, -⟩
        have hx := hall (pyStr "x") (by decide)
        exact absurd hx (by decide))⟩

/-- ASCII alphanumeric, the approximation of Python's Unicode-aware
`str.isalnum` used by `_safe_name` (every name the claims exercise is
ASCII). -/
def isAlnumA (c : Nat) : Bool :=
  (48 ≤ c && c ≤ 57) || (65 ≤ c && c ≤ 90) || (97 ≤ c && c ≤ 122)

/-- `_safe_name` (identical in both scripts): strip, keep alphanumerics and
`-`/`_`, replace the rest by `_`, strip underscores, default `"unnamed"`. -/
def safeName (s : Str) : Str :=
  let cleaned := (pyStrip s).map (fun c => if isAlnumA c || c == 45 || c == 95 then c else 95)
  let r := stripChar 95 cleaned
  if r.isEmpty then pyStr "unnamed" else r

example : safeName (pyStr " My Folder! ") = pyStr "My_Folder" := by decide

example : safeName (pyStr "__") = pyStr "unnamed" := by decide

example : safeName (pyStr "a.b") = safeName (pyStr "a_b") := by decide

/-- Python `str()` of a decoded JSON value, as `_compute_folder_path` applies
it to a folder's `name` field.  For a string it is the string itself and for
scalars it matches Python; containers are approximated by their JSON text
(Python's `repr` quotes differently, but no claim exercises non-string
names). -/
def pyStrOf : JVal → Str
  | .str s => s
  | .null => pyStr "None"
  | .bool true => pyStr "True"
  | .bool false => pyStr "False"
  | .num n => intRepr n
  | .arr xs => jsonDump (.arr xs)
  | .obj kvs => jsonDump (.obj kvs)

/-- Generic association-list lookup (`dict.get`). -/
def alookup {β : Type} : List (Str × β) → Str → Option β
  | [], _ => none
  | (k', v) :: t, k => if k' = k then some v else alookup t k

/-- Generic `d[k] = v`: replace in place or append. -/
def ainsert {β : Type} : List (Str × β) → Str → β → List (Str × β)
  | [], k, v => [(k, v)]
  | (k', v') :: t, k, v => if k' = k then (k', v) :: t else (k', v') :: ainsert t k v

/-- A folder path: the list of sanitized ancestor names, root first
(`pathlib.Path` built by `/`). -/
abbrev FPath := List Str

/-- The folder index `folder_by_id`: id to folder payload (a JSON dict). -/
abbrev FolderIdx := List (Str × List (Str × JVal))

/-- The memo dict of `_compute_folder_path`. -/
abbrev Memo := List (Str × FPath)

/-- `_compute_folder_path` (dump_leveldb_to_json.py), fuelled: one unit of
fuel per recursive call; `none` models a recursion that has not terminated
within the fuel.  Faithful to the source: memo hit first; an id absent from
the index, or one with an empty payload, resolves to no path; a valid parent
link (nonempty string, present in the index, not the folder itself) recurses;
otherwise the folder is root-level. -/
def computeFolderPathF : Nat → FolderIdx → Memo → Str → Option (Option FPath × Memo)
  | 0, _, _, _ => none
  | fuel + 1, idx, memo, fid =>
    match alookup memo fid with
    | some p => some (some p, memo)
    | none =>
      match alookup idx fid with
      | none => some (none, memo)
      | some payload =>
        if payload.isEmpty then some (none, memo)
        else
          let name := safeName (match pyLookup payload (pyStr "name") with
            | some v => pyStrOf v
            | none => fid)
          match pyLookup payload (pyStr "folder") with
          | some (.str pid) =>
            if pid ≠ [] ∧ (alookup idx pid).isSome = true ∧ pid ≠ fid then
              match computeFolderPathF fuel idx memo pid with
              | none => none
              | some (none, memo₁) => some (some [name], ainsert memo₁ fid [name])
              | some (some pp, memo₁) =>
                some (some (pp ++ [name]), ainsert memo₁ fid (pp ++ [name]))
            else some (some [name], ainsert memo fid [name])
          | _ => some (some [name], ainsert memo fid [name])

/-- A two-folder index with an indirect parent cycle A→B→A. -/
def cycIdx : FolderIdx :=
  [(pyStr "A", [(pyStr "folder", JVal.str (pyStr "B"))]),
   (pyStr "B", [(pyStr "folder", JVal.str (pyStr "A"))])]

/-- A three-folder chain A→B→C (C's parent is B, B's parent is A). -/
def chainIdx : FolderIdx :=
  [(pyStr "fa", [(pyStr "name", JVal.str (pyStr "A"))]),
   (pyStr "fb", [(pyStr "name", JVal.str (pyStr "B")),
                 (pyStr "folder", JVal.str (pyStr "fa"))]),
   (pyStr "fc", [(pyStr "name", JVal.str (pyStr "C")),
                 (pyStr "folder", JVal.str (pyStr "fb"))])]

example : computeFolderPathF 3 chainIdx [] (pyStr "fc")
    = some (some [pyStr "A", pyStr "B", pyStr "C"],
        [(pyStr "fa", [pyStr "A"]),
         (pyStr "fb", [pyStr "A", pyStr "B"]),
         (pyStr "fc", [pyStr "A", pyStr "B", pyStr "C"])]) := by decide

example : computeFolderPathF 50 cycIdx [] (pyStr "A") = none := by decide

example : computeFolderPathF 5 [] [] (pyStr "X") = some (none, []) := by decide

/-- A folder whose parent is itself (direct self-reference): root-level. -/
example : computeFolderPathF 5
    [(pyStr "s", [(pyStr "name", JVal.str (pyStr "Self")),
                  (pyStr "folder", JVal.str (pyStr "s"))])] [] (pyStr "s")
    = some (some [pyStr "Self"], [(pyStr "s", [pyStr "Self"])]) := by decide

/-- A rank function witnessing that `chainIdx` has no parent cycle. -/
def rankChain (s : Str) : Nat :=
  if s = pyStr "fc" then 2 else if s = pyStr "fb" then 1 else 0

theorem cyc_fuel_exhausts (n : Nat) :
    computeFolderPathF n cycIdx [] (pyStr "A") = none ∧
    computeFolderPathF n cycIdx [] (pyStr "B") = none := by
  induction n with
  | zero => exact ⟨rfl, rfl⟩
  | succ n ih =>
    constructor
    · have e : computeFolderPathF (n + 1) cycIdx [] (pyStr "A")
          = match computeFolderPathF n cycIdx [] (pyStr "B") with
            | none => none
            | some (none, memo₁) =>
              some (some [safeName (pyStr "A")],
                ainsert memo₁ (pyStr "A") [safeName (pyStr "A")])
            | some (some pp, memo₁) =>
              some (some (pp ++ [safeName (pyStr "A")]),
                ainsert memo₁ (pyStr "A") (pp ++ [safeName (pyStr "A")])) := rfl
      rw [e, ih.2]
    · have e : computeFolderPathF (n + 1) cycIdx [] (pyStr "B")
          = match computeFolderPathF n cycIdx [] (pyStr "A") with
            | none => none
            | some (none, memo₁) =>
              some (some [safeName (pyStr "B")],
                ainsert memo₁ (pyStr "B") [safeName (pyStr "B")])
            | some (some pp, memo₁) =>
              some (some (pp ++ [safeName (pyStr "B")]),
                ainsert memo₁ (pyStr "B") (pp ++ [safeName (pyStr "B")])) := rfl
      rw [e, ih.1]

/-- C2, amended: folder-path resolution terminates and returns a result (it
degrades rather than crashes) on every folder index whose parent links admit
a decreasing rank — this covers missing parents, non-string or empty parent
fields, and direct self-references, which the source guards; indirect cycles
such as A→B→A admit no rank and are refuted by
`folderPath_cycle_diverges`. -/
theorem folderPath_terminates_with_rank (idx : FolderIdx) (rank : Str → Nat)
    (hrank : ∀ (fid : Str) (payload : List (Str × JVal)) (pid : Str),
      alookup idx fid = some payload →
      pyLookup payload (pyStr "folder") = some (JVal.str pid) →
      pid ≠ [] ∧ (alookup idx pid).isSome = true ∧ pid ≠ fid →
      rank pid < rank fid) :
    ∀ (fuel : Nat) (fid : Str) (memo : Memo), rank fid < fuel →
      computeFolderPathF fuel idx memo fid ≠ none := by
  intro fuel
  induction fuel with
  | zero => intro fid memo h; omega
  | succ fuel ihf =>
    intro fid memo hlt
    rcases hm : alookup memo fid with _ | p
    · rcases hi : alookup idx fid with _ | payload
      · rw [computeFolderPathF, hm, hi]
        simp
      · by_cases hpe : payload.isEmpty
        · rw [computeFolderPathF, hm, hi]
          simp [hpe]
        · rcases hf : pyLookup payload (pyStr "folder") with _ | v
          · rw [computeFolderPathF, hm, hi]
            simp [hpe, hf]
          · cases v with
            | str pid =>
              by_cases hcond : pid ≠ [] ∧ (alookup idx pid).isSome = true ∧ pid ≠ fid
              · have hr : rank pid < rank fid := hrank fid payload pid hi hf hcond
                have hrec := ihf pid memo (by omega)
                rcases hq : computeFolderPathF fuel idx memo pid with _ | res
                · exact absurd hq hrec
                · obtain ⟨po, memo₁⟩ := res
                  cases po with
                  | none =>
                    rw [computeFolderPathF, hm, hi]
                    simp [hpe, hf, hcond, hq]
                  | some pp =>
                    rw [computeFolderPathF, hm, hi]
                    simp [hpe, hf, hcond, hq]
              · rw [computeFolderPathF, hm, hi]
                simp [hpe, hf, hcond]
            | null =>
              rw [computeFolderPathF, hm, hi]
              simp [hpe, hf]
            | bool b =>
              rw [computeFolderPathF, hm, hi]
              simp [hpe, hf]
            | num m =>
              rw [computeFolderPathF, hm, hi]
              simp [hpe, hf]
            | arr xs =>
              rw [computeFolderPathF, hm, hi]
              simp [hpe, hf]
            | obj o =>
              rw [computeFolderPathF, hm, hi]
              simp [hpe, hf]
    · rw [computeFolderPathF, hm]
      simp

/-- Counterexample to C2 as stated: on the indirect parent cycle A→B→A the
folder-path walk never terminates — `_compute_folder_path` exhausts every
fuel bound, modelling the unbounded recursion (a `RecursionError` crash in
CPython).  Only missing parents and direct self-references are guarded. -/
theorem folderPath_cycle_diverges :
    (fun fuel => computeFolderPathF fuel cycIdx [] (pyStr "A"))
      = fun _ => none := by
  funext n
  exact (cyc_fuel_exhausts n).1

/-- Witness for the amended C2 theorem: the acyclic chain index resolves with
fuel 3 from the empty memo. -/
theorem folderPath_terminates_with_rank_witness :
    computeFolderPathF 3 chainIdx [] (pyStr "fc") ≠ none := by
  apply folderPath_terminates_with_rank chainIdx rankChain
  · intro fid payload pid h1 h2 h3
    have h1' : (if pyStr "fa" = fid then
          some [(pyStr "name", JVal.str (pyStr "A"))]
        else if pyStr "fb" = fid then
          some [(pyStr "name", JVal.str (pyStr "B")),
                (pyStr "folder", JVal.str (pyStr "fa"))]
        else if pyStr "fc" = fid then
          some [(pyStr "name", JVal.str (pyStr "C")),
                (pyStr "folder", JVal.str (pyStr "fb"))]
        else none) = some payload := h1
    by_cases hfa : pyStr "fa" = fid
    · rw [if_pos hfa] at h1'
      have hpay := Option.some.inj h1'
      subst hpay
      have he : pyLookup [(pyStr "name", JVal.str (pyStr "A"))] (pyStr "folder")
          = none := by decide
      rw [he] at h2
      exact Option.noConfusion h2
    · rw [if_neg hfa] at h1'
      by_cases hfb : pyStr "fb" = fid
      · rw [if_pos hfb] at h1'
        have hpay := Option.some.inj h1'
        subst hpay
        have he : pyLookup [(pyStr "name", JVal.str (pyStr "B")),
            (pyStr "folder", JVal.str (pyStr "fa"))] (pyStr "folder")
            = some (JVal.str (pyStr "fa")) := by decide
        rw [he] at h2
        simp only [Option.some.injEq, JVal.str.injEq] at h2
        subst h2
        subst hfb
        decide
      · rw [if_neg hfb] at h1'
        by_cases hfc : pyStr "fc" = fid
        · rw [if_pos hfc] at h1'
          have hpay := Option.some.inj h1'
          subst hpay
          have he : pyLookup [(pyStr "name", JVal.str (pyStr "C")),
              (pyStr "folder", JVal.str (pyStr "fb"))] (pyStr "folder")
              = some (JVal.str (pyStr "fb")) := by decide
          rw [he] at h2
          simp only [Option.some.injEq, JVal.str.injEq] at h2
          subst h2
          subst hfc
          decide
        · rw [if_neg hfc] at h1'
          exact Option.noConfusion h1'
  · decide

theorem alookup_mem {β : Type} (l : List (Str × β)) (k : Str) (v : β)
    (h : alookup l k = some v) : (k, v) ∈ l := by
  induction l with
  | nil => simp [alookup] at h
  | cons p t ih =>
    obtain ⟨k', v'⟩ := p
    unfold alookup at h
    split at h
    · rename_i heq
      simp only [Option.some.injEq] at h
      subst heq
      subst h
      simp
    · simp [ih h]

/-- The only correct memo contents for the chain `a →parent b →parent c`. -/
def chainInv (a b c na nb nc : Str) (q : Str × FPath) : Prop :=
  (q.1 = a ∧ q.2 = [safeName na]) ∨
  (q.1 = b ∧ q.2 = [safeName na, safeName nb]) ∨
  (q.1 = c ∧ q.2 = [safeName na, safeName nb, safeName nc])

/-- C3, amended.  First conjunct: for a parent chain A→B→C characterized only
by its lookups (hence independent of the order folders were inserted into the
index) and any memo containing only correct entries (hence independent of the
order earlier resolutions ran), resolving C yields the path `A/B/C`.  Second
conjunct: an id absent from both index and memo resolves to no path at all
(`None`), not to its own sanitized name — the record then falls back to its
root-named directory. -/
theorem folder_chain_resolution :
    (∀ (idx : FolderIdx) (memo : Memo) (a b c : Str)
      (pa pb pc : List (Str × JVal)) (na nb nc : Str),
      a ≠ b → b ≠ c → a ≠ c →
      alookup idx a = some pa → alookup idx b = some pb →
      alookup idx c = some pc →
      pa.isEmpty = false → pb.isEmpty = false → pc.isEmpty = false →
      pyLookup pa (pyStr "name") = some (JVal.str na) →
      pyLookup pb (pyStr "name") = some (JVal.str nb) →
      pyLookup pc (pyStr "name") = some (JVal.str nc) →
      pyLookup pa (pyStr "folder") = none →
      pyLookup pb (pyStr "folder") = some (JVal.str a) → a ≠ [] →
      pyLookup pc (pyStr "folder") = some (JVal.str b) → b ≠ [] →
      (∀ q ∈ memo, chainInv a b c na nb nc q) →
      ∃ memo', computeFolderPathF 3 idx memo c
        = some (some [safeName na, safeName nb, safeName nc], memo')) ∧
    (∀ (idx : FolderIdx) (memo : Memo) (fid : Str) (fuel : Nat),
      alookup idx fid = none → alookup memo fid = none →
      computeFolderPathF (fuel + 1) idx memo fid = some (none, memo)) := by
  constructor
  · intro idx memo a b c pa pb pc na nb nc hab hbc hac hia hib hic hpa hpb hpc
      hna hnb hnc hfa hfb hane hfc hbne hmemo
    have stepA : ∀ m : Memo, (∀ q ∈ m, chainInv a b c na nb nc q) →
        ∃ m', computeFolderPathF 1 idx m a = some (some [safeName na], m') := by
      intro m hm
      rcases hq : alookup m a with _ | p
      · refine ⟨ainsert m a [safeName na], ?_⟩
        rw [computeFolderPathF, hq, hia]
        simp [hpa, hna, hfa, pyStrOf]
      · have hp : p = [safeName na] := by
          have hmem := alookup_mem m a p hq
          rcases hm (a, p) hmem with h | h | h
          · exact h.2
          · exact absurd h.1 hab
          · exact absurd h.1 hac
        refine ⟨m, ?_⟩
        rw [computeFolderPathF, hq, hp]
    have stepB : ∀ m : Memo, (∀ q ∈ m, chainInv a b c na nb nc q) →
        ∃ m', computeFolderPathF 2 idx m b
          = some (some [safeName na, safeName nb], m') := by
      intro m hm
      rcases hq : alookup m b with _ | p
      · obtain ⟨m₁, hm₁⟩ := stepA m hm
        refine ⟨ainsert m₁ b [safeName na, safeName nb], ?_⟩
        rw [computeFolderPathF, hq, hib]
        simp [hpb, hnb, hfb, pyStrOf, hane, hia, hab, hm₁]
      · have hp : p = [safeName na, safeName nb] := by
          have hmem := alookup_mem m b p hq
          rcases hm (b, p) hmem with h | h | h
          · exact absurd h.1.symm hab
          · exact h.2
          · exact absurd h.1 hbc
        refine ⟨m, ?_⟩
        rw [computeFolderPathF, hq, hp]
    rcases hq : alookup memo c with _ | p
    · obtain ⟨m₁, hm₁⟩ := stepB memo hmemo
      refine ⟨ainsert m₁ c [safeName na, safeName nb, safeName nc], ?_⟩
      rw [computeFolderPathF, hq, hic]
      simp [hpc, hnc, hfc, pyStrOf, hbne, hib, hbc, hm₁]
    · have hp : p = [safeName na, safeName nb, safeName nc] := by
        have hmem := alookup_mem memo c p hq
        rcases hmemo (c, p) hmem with h | h | h
        · exact absurd h.1.symm hac
        · exact absurd h.1.symm hbc
        · exact h.2
      refine ⟨memo, ?_⟩
      rw [computeFolderPathF, hq, hp]
  · intro idx memo fid fuel hidx hmemo
    rw [computeFolderPathF, hmemo, hidx]

/-- C3 witness: the chain index fa→fb→fc resolves fc to A/B/C, and an id
absent from the index resolves to no path. -/
theorem folder_chain_resolution_witness :
    (∃ memo', computeFolderPathF 3 chainIdx [] (pyStr "fc")
      = some (some [safeName (pyStr "A"), safeName (pyStr "B"),
          safeName (pyStr "C")], memo')) ∧
    computeFolderPathF 5 chainIdx [] (pyStr "zz") = some (none, []) := by
  constructor
  · exact folder_chain_resolution.1 chainIdx [] (pyStr "fa") (pyStr "fb") (pyStr "fc")
      [(pyStr "name", JVal.str (pyStr "A"))]
      [(pyStr "name", JVal.str (pyStr "B")), (pyStr "folder", JVal.str (pyStr "fa"))]
      [(pyStr "name", JVal.str (pyStr "C")), (pyStr "folder", JVal.str (pyStr "fb"))]
      (pyStr "A") (pyStr "B") (pyStr "C")
      (by decide) (by decide) (by decide) (by decide) (by decide) (by decide)
      (by decide) (by decide) (by decide) (by decide) (by decide) (by decide)
      (by decide) (by decide) (by decide) (by decide) (by decide)
      (by intro q hq; simp at hq)
  · exact folder_chain_resolution.2 chainIdx [] (pyStr "zz") 4 (by decide) (by decide)

/-- C3 counterexample: an id absent from the folder index resolves to `none`
(the record falls back to the root directory), not to its own sanitized name
as claimed. -/
theorem folder_absent_id_counterexample :
    computeFolderPathF 5 chainIdx [] (pyStr "zz") = some (none, []) ∧
    (none : Option FPath) ≠ some [safeName (pyStr "zz")] := by decide

example : b64encode [104, 105] = pyStr "aGk=" := by decide

example : b64decode (pyStr "aGk=") = some [104, 105] := by decide

example : b64decode (pyStr "AA") = none := by decide

example : pyStrip (pyStr "  a b ") = pyStr "a b" := by decide

example : stripChar 95 (pyStr "__a_b__") = pyStr "a_b" := by decide

example : pyLookup [(pyStr "a", JVal.num 1)] (pyStr "a") = some (JVal.num 1) := by decide

example :
    pyInsert [(pyStr "a", JVal.num 1), (pyStr "b", JVal.null)] (pyStr "a") (JVal.num 2)
      = [(pyStr "a", JVal.num 2), (pyStr "b", JVal.null)] := by decide

/-! ## Record placement (`_place_records`, dump_leveldb_to_json.py) -/

/-- The title fields `_record_title` probes, in order. -/
def titleFields : List Str := [pyStr "name", pyStr "title", pyStr "label", pyStr "_id"]

/-- The first probed field holding a string that is nonempty after strip. -/
def firstTitle (o : List (Str × JVal)) : List Str → Option Str
  | [] => none
  | f :: rest =>
    match pyLookup o f with
    | some (JVal.str s) => if pyStrip s ≠ [] then some s else firstTitle o rest
    | _ => firstTitle o rest

/-- `_record_title` (dump_leveldb_to_json.py): sanitized first nonblank string
among `name`/`title`/`label`/`_id` of a dict value, else the sanitized
fallback. -/
def recordTitle (value : JVal) (fallback : Str) : Str :=
  match value with
  | JVal.obj o =>
    match firstTitle o titleFields with
    | some s => safeName s
    | none => safeName fallback
  | _ => safeName fallback

/-- `rec_id = str(rec.get("id") or "").strip() or "unknown"`. -/
def normId (i : Str) : Str :=
  if pyStrip i = [] then pyStr "unknown" else pyStrip i

/-- One dumped record as `_place_records` receives it: parsed root, id, full
key text and decoded value. -/
structure Rec where
  root : Str
  id : Str
  key : Str
  value : JVal
deriving DecidableEq

/-- A relative output path: directory components and file name. -/
structure RelPath where
  dirs : List Str
  file : Str
deriving DecidableEq

/-- `file_name = f"{title}__{_safe_name(rec_id)}.json"`. -/
def fileNameOf (r : Rec) : Str :=
  recordTitle r.value (normId r.id) ++ pyStr "__" ++ safeName (normId r.id) ++ pyStr ".json"

/-- The placement of one record by `_place_records`: directory `_tree`/folder
path/root when the value's `folder` field resolves, else the root name; file
name from title and sanitized id.  Fuelled through the folder resolution;
threads the folder-path memo. -/
def placeRecordF (fuel : Nat) (idx : FolderIdx) (memo : Memo) (r : Rec) :
    Option (RelPath × Memo) :=
  match r.value with
  | JVal.obj o =>
    match pyLookup o (pyStr "folder") with
    | some (JVal.str fid) =>
      if fid ≠ [] then
        match computeFolderPathF fuel idx memo fid with
        | none => none
        | some (some fp, memo₁) =>
          some (⟨(pyStr "_tree" :: fp) ++ [r.root], fileNameOf r⟩, memo₁)
        | some (none, memo₁) => some (⟨[r.root], fileNameOf r⟩, memo₁)
      else some (⟨[r.root], fileNameOf r⟩, memo)
    | _ => some (⟨[r.root], fileNameOf r⟩, memo)
  | _ => some (⟨[r.root], fileNameOf r⟩, memo)

theorem placeRecordF_file (fuel : Nat) (idx : FolderIdx) (m : Memo) (r : Rec)
    (p : RelPath) (mo : Memo) (h : placeRecordF fuel idx m r = some (p, mo)) :
    p.file = fileNameOf r := by
  unfold placeRecordF at h
  repeat split at h
  all_goals first
    | exact Option.noConfusion h
    | (cases h; rfl)

/-- Two records with the same root and id but distinct keys. -/
def rSameId1 : Rec := ⟨pyStr "items", pyStr "i1", pyStr "!items!i1", JVal.null⟩
def rSameId2 : Rec := ⟨pyStr "items", pyStr "i1", pyStr "!items!i1!sub", JVal.null⟩

/-- Two records with the same title and different ids whose sanitized forms
coincide. -/
def rDotId : Rec := ⟨pyStr "items", pyStr "a.b", pyStr "!items!a.b",
  JVal.obj [(pyStr "name", JVal.str (pyStr "T"))]⟩
def rUndId : Rec := ⟨pyStr "items", pyStr "a_b", pyStr "!items!a_b",
  JVal.obj [(pyStr "name", JVal.str (pyStr "T"))]⟩

/-- C4 counterexample: two distinct records sharing root and id (keys
`!items!i1` and `!items!i1!sub`) are placed at the same output path; and two
records with the same title and different ids `a.b` / `a_b` collide because
sanitization maps both ids to `a_b`. -/
theorem recordPlacer_collision_counterexample :
    (rSameId1 ≠ rSameId2 ∧ rSameId1.root = rSameId2.root ∧
      rSameId1.id = rSameId2.id ∧
      placeRecordF 5 [] [] rSameId1 = placeRecordF 5 [] [] rSameId2 ∧
      (placeRecordF 5 [] [] rSameId1).isSome = true) ∧
    (rDotId.id ≠ rUndId.id ∧
      recordTitle rDotId.value (normId rDotId.id)
        = recordTitle rUndId.value (normId rUndId.id) ∧
      placeRecordF 5 [] [] rDotId = placeRecordF 5 [] [] rUndId ∧
      (placeRecordF 5 [] [] rDotId).isSome = true) := by decide

/-- C4, amended: placement separates records whose titles agree only when
their sanitized ids differ: if both records are placed, share a title, and
their sanitized normalized ids differ, the output paths differ (the file
names already differ).  Same root and id, or ids merged by sanitization, can
collide. -/
theorem recordPlacer_distinct_amended
    (fuel : Nat) (idx : FolderIdx) (m1 m2 : Memo) (r1 r2 : Rec)
    (p1 p2 : RelPath) (mo1 mo2 : Memo)
    (h1 : placeRecordF fuel idx m1 r1 = some (p1, mo1))
    (h2 : placeRecordF fuel idx m2 r2 = some (p2, mo2))
    (htitle : recordTitle r1.value (normId r1.id)
      = recordTitle r2.value (normId r2.id))
    (hid : safeName (normId r1.id) ≠ safeName (normId r2.id)) :
    p1 ≠ p2 := by
  intro hp
  apply hid
  have hf1 := placeRecordF_file fuel idx m1 r1 p1 mo1 h1
  have hf2 := placeRecordF_file fuel idx m2 r2 p2 mo2 h2
  have hfe : fileNameOf r1 = fileNameOf r2 := by rw [← hf1, ← hf2, hp]
  unfold fileNameOf at hfe
  rw [htitle] at hfe
  exact List.append_cancel_left (List.append_cancel_right hfe)

/-- C4 witness: records titled `T` with ids `x1` and `x2` land at distinct
paths. -/
theorem recordPlacer_distinct_amended_witness :
    (⟨[pyStr "items"], fileNameOf ⟨pyStr "items", pyStr "x1", pyStr "k1",
        JVal.obj [(pyStr "name", JVal.str (pyStr "T"))]⟩⟩ : RelPath)
      ≠ ⟨[pyStr "items"], fileNameOf ⟨pyStr "items", pyStr "x2", pyStr "k2",
        JVal.obj [(pyStr "name", JVal.str (pyStr "T"))]⟩⟩ :=
  recordPlacer_distinct_amended 5 [] [] []
    ⟨pyStr "items", pyStr "x1", pyStr "k1",
      JVal.obj [(pyStr "name", JVal.str (pyStr "T"))]⟩
    ⟨pyStr "items", pyStr "x2", pyStr "k2",
      JVal.obj [(pyStr "name", JVal.str (pyStr "T"))]⟩
    ⟨[pyStr "items"], fileNameOf ⟨pyStr "items", pyStr "x1", pyStr "k1",
      JVal.obj [(pyStr "name", JVal.str (pyStr "T"))]⟩⟩
    ⟨[pyStr "items"], fileNameOf ⟨pyStr "items", pyStr "x2", pyStr "k2",
      JVal.obj [(pyStr "name", JVal.str (pyStr "T"))]⟩⟩
    [] [] (by decide) (by decide) (by decide) (by decide)

/-! ## Merge of known and new records (`rebuild_all`, rebuild_leveldb_from_json.py) -/

/-- `merged = {}` then `merged[key] = value` over known records, then over new
records: a left fold of dict insertion over their concatenation. -/
def mergeRecords (known newRecs : List (Str × Bytes)) : List (Str × Bytes) :=
  (known ++ newRecs).foldl (fun m kv => ainsert m kv.1 kv.2) []

theorem alookup_ainsert {β : Type} (m : List (Str × β)) (k k' : Str) (v : β) :
    alookup (ainsert m k v) k' = if k = k' then some v else alookup m k' := by
  induction m with
  | nil => simp [ainsert, alookup]
  | cons p t ih =>
    obtain ⟨k₀, v₀⟩ := p
    unfold ainsert
    by_cases h0 : k₀ = k
    · subst h0
      simp only [if_pos rfl]
      by_cases h1 : k₀ = k'
      · subst h1; simp [alookup]
      · simp [alookup, h1]
    · rw [if_neg h0]
      by_cases h1 : k₀ = k'
      · subst h1
        have hkk : ¬ k = k₀ := fun he => h0 he.symm
        simp [alookup, if_neg hkk]
      · simp [alookup, h1, ih]

theorem alookup_append {β : Type} (l₁ l₂ : List (Str × β)) (k : Str) :
    alookup (l₁ ++ l₂) k
      = match alookup l₁ k with
        | some v => some v
        | none => alookup l₂ k := by
  induction l₁ with
  | nil => simp [alookup]
  | cons p t ih =>
    obtain ⟨k₀, v₀⟩ := p
    by_cases h : k₀ = k
    · simp [alookup, h]
    · simp [alookup, h, ih]

theorem alookup_foldl_ainsert {β : Type} (l : List (Str × β))
    (init : List (Str × β)) (k : Str) :
    alookup (l.foldl (fun m kv => ainsert m kv.1 kv.2) init) k
      = match alookup l.reverse k with
        | some v => some v
        | none => alookup init k := by
  induction l generalizing init with
  | nil => simp [alookup]
  | cons p t ih =>
    obtain ⟨k₀, v₀⟩ := p
    rw [List.foldl_cons, ih]
    have hrev : ((k₀, v₀) :: t).reverse = t.reverse ++ [(k₀, v₀)] := by simp
    rw [hrev, alookup_append]
    rcases hq : alookup t.reverse k with _ | w
    · simp only []
      rw [alookup_ainsert]
      by_cases h : k₀ = k
      · simp [alookup, h]
      · simp [alookup, h]
    · simp only []

/-- C6: whenever the new records map key K (reading the list as a dict, so the
last pair with key K wins), the merged mapping maps K to that new encoded
content, regardless of what any manifest-known record put there: known records
are applied first and new records afterwards. -/
theorem merge_precedence (known newRecs : List (Str × Bytes)) (k : Str) (v : Bytes)
    (h : alookup newRecs.reverse k = some v) :
    alookup (mergeRecords known newRecs) k = some v := by
  unfold mergeRecords
  rw [alookup_foldl_ainsert]
  have hrev : (known ++ newRecs).reverse = newRecs.reverse ++ known.reverse := by simp
  rw [hrev, alookup_append, h]

/-- C6 witness: a manifest record and a new file sharing key `!a!1` merge to
the new file's bytes. -/
theorem merge_precedence_witness :
    alookup (mergeRecords [(pyStr "!a!1", [1])] [(pyStr "!a!1", [2])])
      (pyStr "!a!1") = some [2] :=
  merge_precedence [(pyStr "!a!1", [1])] [(pyStr "!a!1", [2])]
    (pyStr "!a!1") [2] (by decide)

/-! ## Id allocation (`_random_id`, `_extract_id_from_key`, rebuild_leveldb_from_json.py) -/

/-- `_extract_id_from_key`: keys starting with `!` and holding at least three
`!`-separated parts yield the stripped third part when nonempty. -/
def extractIdFromKey (key : Str) : Option Str :=
  if key.headD 0 = 33 then
    let parts := List.splitOn 33 key
    if 3 ≤ parts.length then
      let recId := pyStrip (parts.getD 2 [])
      if recId = [] then none else some recId
    else none
  else none

/-- The ids extracted from the manifest's keys at the start of a rebuild pass
(`used_ids` set comprehension in `rebuild_all`). -/
def manifestUsedIds (keys : List Str) : List Str :=
  keys.filterMap extractIdFromKey

/-- `_random_id`: draw candidates (modelled as a list of prospective random
strings) until one is absent from the used set; returns it with the unspent
draws.  `none` models an unending streak of collisions. -/
def randomId (draws used : List Str) : Option (Str × List Str) :=
  match draws with
  | [] => none
  | d :: rest => if d ∈ used then randomId rest used else some (d, rest)

/-- N successive allocations in one pass: each allocated id is added to the
used set before the next allocation, as `_build_new_records` does with
`used_ids.add`.  Returns the allocated ids, unspent draws and final used
set. -/
def allocN : Nat → List Str → List Str → Option (List Str × List Str × List Str)
  | 0, draws, used => some ([], draws, used)
  | n + 1, draws, used =>
    (randomId draws used).bind (fun p =>
      (allocN n p.2 (p.1 :: used)).bind (fun q =>
        some (p.1 :: q.1, q.2.1, q.2.2)))

theorem randomId_spec (draws used : List Str) (i : Str) (rest : List Str)
    (h : randomId draws used = some (i, rest)) : i ∉ used := by
  induction draws with
  | nil => simp [randomId] at h
  | cons d t ih =>
    unfold randomId at h
    split at h
    · exact ih h
    · rename_i hmem
      cases h
      exact hmem

theorem allocN_spec (n : Nat) : ∀ (draws used ids d' u' : List Str),
    allocN n draws used = some (ids, d', u') →
    ids.Nodup ∧ ∀ i ∈ ids, i ∉ used := by
  induction n with
  | zero =>
    intro draws used ids d' u' h
    unfold allocN at h
    cases h
    simp
  | succ n ih =>
    intro draws used ids d' u' h
    unfold allocN at h
    rcases hr : randomId draws used with _ | ⟨i, rest⟩
    · rw [hr] at h; simp at h
    · rw [hr] at h
      simp only [Option.some_bind] at h
      rcases ha : allocN n rest (i :: used) with _ | ⟨ids₀, d₀, u₀⟩
      · rw [ha] at h; simp at h
      · rw [ha] at h
        simp only [Option.some_bind] at h
        cases h
        obtain ⟨hnd, hni⟩ := ih rest (i :: used) _ _ _ ha
        constructor
        · exact List.nodup_cons.mpr
            ⟨fun hmem => (hni i hmem) (List.mem_cons_self i used), hnd⟩
        · intro j hj
          rcases List.mem_cons.mp hj with rfl | hj₀
          · exact randomId_spec draws used j rest hr
          · exact fun hju => hni j hj₀ (List.mem_cons_of_mem i hju)

/-- C7: after any number N of allocations in one rebuild pass (the allocator
retries until the candidate is outside the used set, and each result joins
the used set before the next allocation), the N allocated ids are pairwise
distinct and each is distinct from every id extracted from the manifest's
keys at the start of the pass. -/
theorem idAllocation_unique (n : Nat) (draws keys ids d' u' : List Str)
    (h : allocN n draws (manifestUsedIds keys) = some (ids, d', u')) :
    ids.Nodup ∧ ∀ i ∈ ids, i ∉ manifestUsedIds keys :=
  allocN_spec n draws (manifestUsedIds keys) ids d' u' h

/-- C7 witness: with manifest key `!items!aaa` and colliding draws, two
allocations yield the distinct fresh ids `bbb` and `ccc`. -/
theorem idAllocation_unique_witness :
    ([pyStr "bbb", pyStr "ccc"] : List Str).Nodup ∧
    ∀ i ∈ [pyStr "bbb", pyStr "ccc"], i ∉ manifestUsedIds [pyStr "!items!aaa"] :=
  idAllocation_unique 2 [pyStr "aaa", pyStr "bbb", pyStr "bbb", pyStr "ccc"]
    [pyStr "!items!aaa"] [pyStr "bbb", pyStr "ccc"] []
    [pyStr "ccc", pyStr "bbb", pyStr "aaa"] (by decide)

/-! ## Known records (`_build_known_records`, rebuild_leveldb_from_json.py) -/

/-- A dict field read as a string (`item.get(f)` plus `isinstance(., str)`). -/
def getStr (item : List (Str × JVal)) (field : Str) : Option Str :=
  match pyLookup item field with
  | some (JVal.str s) => some s
  | _ => none

/-- `_build_known_records`: the filesystem is the map from relative path to
the parsed JSON content of the file there; a path outside it is a missing
file.  An entry whose key or path is not a string is skipped; a missing file
is skipped (with a warning); an encode error (`binascii.Error`) is uncaught
and aborts the build (`none`). -/
def buildKnownRecords (fs : List (Str × JVal)) :
    List (List (Str × JVal)) → Option (List (Str × Bytes))
  | [] => some []
  | item :: rest =>
    match getStr item (pyStr "key"), getStr item (pyStr "path") with
    | some key, some relPath =>
      match alookup fs relPath with
      | none => buildKnownRecords fs rest
      | some value =>
        match encodeValue value with
        | none => none
        | some bytes =>
          (buildKnownRecords fs rest).map (fun t => (key, bytes) :: t)
    | _, _ => buildKnownRecords fs rest

/-- What one manifest entry contributes: its key paired with the re-encoded
content of its file, when the entry is well-formed and the file exists. -/
def knownRecordSpec (fs : List (Str × JVal)) (item : List (Str × JVal)) :
    Option (Str × Bytes) :=
  match getStr item (pyStr "key"), getStr item (pyStr "path") with
  | some key, some relPath =>
    match alookup fs relPath with
    | none => none
    | some value => (encodeValue value).map (fun b => (key, b))
  | _, _ => none

/-- C8: building known records succeeds whenever every existing file's content
encodes, and returns exactly the entries whose recorded files exist, in
manifest order — entries with missing files are skipped without aborting the
build. -/
theorem missingRecordFile_nonFatal (fs : List (Str × JVal))
    (manifest : List (List (Str × JVal)))
    (henc : ∀ p v, alookup fs p = some v → (encodeValue v).isSome = true) :
    buildKnownRecords fs manifest
      = some (manifest.filterMap (knownRecordSpec fs)) := by
  induction manifest with
  | nil => rfl
  | cons item rest ih =>
    rcases h1 : getStr item (pyStr "key") with _ | key
    all_goals rcases h2 : getStr item (pyStr "path") with _ | relPath
    · simp [buildKnownRecords, knownRecordSpec, h1, h2, List.filterMap_cons, ih]
    · simp [buildKnownRecords, knownRecordSpec, h1, h2, List.filterMap_cons, ih]
    · simp [buildKnownRecords, knownRecordSpec, h1, h2, List.filterMap_cons, ih]
    · rcases h3 : alookup fs relPath with _ | value
      · simp [buildKnownRecords, knownRecordSpec, h1, h2, h3, List.filterMap_cons, ih]
      · rcases h5 : encodeValue value with _ | bytes
        · have h4 := henc relPath value h3
          rw [h5] at h4
          simp at h4
        · simp [buildKnownRecords, knownRecordSpec, h1, h2, h3, h5,
            List.filterMap_cons, ih]

/-- C8 witness: a two-entry manifest whose second file is missing still builds,
yielding exactly the first entry re-encoded. -/
theorem missingRecordFile_nonFatal_witness :
    buildKnownRecords [(pyStr "a.json", JVal.null)]
      [[(pyStr "key", JVal.str (pyStr "!a!1")),
        (pyStr "path", JVal.str (pyStr "a.json"))],
       [(pyStr "key", JVal.str (pyStr "!a!2")),
        (pyStr "path", JVal.str (pyStr "missing.json"))]]
      = some [(pyStr "!a!1", [110, 117, 108, 108])] := by
  refine Eq.trans (missingRecordFile_nonFatal _ _ ?_) (by decide)
  intro p v h
  unfold alookup at h
  split at h
  · cases h; decide
  · simp [alookup] at h

/-! ## New records (`_build_new_records`, rebuild_leveldb_from_json.py) -/

/-- A record file's relative location: directory components and file stem
(name without the `.json` suffix). -/
structure RelFile where
  dirs : List Str
  stem : Str
deriving DecidableEq

/-- `_infer_root_from_path`: under `_tree` the root is the second-to-last
part (needs at least three); other `_`-prefixed top directories yield none;
otherwise the first part. -/
def inferRootFromPath (f : RelFile) : Option Str :=
  let parts : List Str := f.dirs ++ [f.stem ++ pyStr ".json"]
  match parts with
  | [] => none
  | p0 :: _ =>
    if p0 = pyStr "_tree" then
      if parts.length < 3 then none
      else some (parts.reverse.getD 1 [])
    else if p0.headD 0 = 95 then none
    else some p0

/-- `s.rsplit(sep, 1)` for a one-character separator: the split at the last
occurrence, `none` when the separator does not occur. -/
def rsplitChar (sep : Nat) : Str → Option (Str × Str)
  | [] => none
  | c :: t =>
    match rsplitChar sep t with
    | some (pre, suf) => some (c :: pre, suf)
    | none => if c = sep then some ([], t) else none

/-- `stem.rsplit("__", 1)`: the split at the last occurrence of `__`. -/
def rsplitDunder : Str → Option (Str × Str)
  | [] => none
  | c :: t =>
    match rsplitDunder t with
    | some (pre, suf) => some (c :: pre, suf)
    | none =>
      match t with
      | c₂ :: t₂ => if c = 95 ∧ c₂ = 95 then some ([], t₂) else none
      | [] => none

/-- `_filename_has_id`: the stem contains `__` with a nonempty tail after the
last one. -/
def filenameHasId (stem : Str) : Bool :=
  match rsplitDunder stem with
  | some (_, suf) => suf ≠ []
  | none => false

/-- The stem-based fallback of `_infer_id`: the tail after the last `__` when
present and nonempty, else the sanitized stem. -/
def inferIdStem (stem : Str) : Str :=
  match rsplitDunder stem with
  | some (_, guessed) => if guessed ≠ [] then guessed else safeName stem
  | none => safeName stem

/-- `_infer_id`: the stripped `_id` string field when nonblank, else the
stem-based fallback. -/
def inferId (value : JVal) (stem : Str) : Str :=
  match value with
  | JVal.obj o =>
    match pyLookup o (pyStr "_id") with
    | some (JVal.str vid) =>
      if pyStrip vid ≠ [] then pyStrip vid else inferIdStem stem
    | _ => inferIdStem stem
  | _ => inferIdStem stem

/-- `_replace_compendium_source_id`: rewrite the id after the last dot of a
nonempty `compendiumSource` string, or the whole value when it has no dot. -/
def replaceCompendiumSourceId (stats : List (Str × JVal)) (newId : Str) :
    List (Str × JVal) :=
  match pyLookup stats (pyStr "compendiumSource") with
  | some (JVal.str source) =>
    if source = [] then stats
    else
      match rsplitChar 46 source with
      | some (pre, _) =>
        pyInsert stats (pyStr "compendiumSource") (JVal.str (pre ++ [46] ++ newId))
      | none => pyInsert stats (pyStr "compendiumSource") (JVal.str newId)
  | _ => stats

/-- Stamp a fresh id into a record dict: set `_id`, and patch
`_stats.compendiumSource` when `_stats` is a dict. -/
def stampId (o : List (Str × JVal)) (newId : Str) : List (Str × JVal) :=
  let o₁ := pyInsert o (pyStr "_id") (JVal.str newId)
  match pyLookup o₁ (pyStr "_stats") with
  | some (JVal.obj stats) =>
    pyInsert o₁ (pyStr "_stats") (JVal.obj (replaceCompendiumSourceId stats newId))
  | _ => o₁

/-- The rename step of `_build_new_records`: a stem without an id suffix gets
`__` plus a freshly allocated id appended (the allocation joins the used set);
returns the final stem, the generated id if any, and the remaining draws and
used set. -/
def renameStep (stem : Str) (draws used : List Str) :
    Option (Str × Option Str × List Str × List Str) :=
  if filenameHasId stem then some (stem, none, draws, used)
  else
    match randomId draws used with
    | none => none
    | some (gid, rest) => some (stem ++ pyStr "__" ++ gid, some gid, rest, gid :: used)

/-- Allocate a fresh id and stamp it into the dict. -/
def createIdStep (o₁ : List (Str × JVal)) (draws used : List Str) :
    Option (JVal × List Str × List Str) :=
  match randomId draws used with
  | none => none
  | some (cid, rest) => some (JVal.obj (stampId o₁ cid), rest, cid :: used)

/-- The id-stamping step of `_build_new_records`: a dict value receives the
generated id (if the file was renamed), then a created id when its `_id` is
still absent, non-string or blank; non-dict values pass through. -/
def stampStep (value : JVal) (generated : Option Str) (draws used : List Str) :
    Option (JVal × List Str × List Str) :=
  match value with
  | JVal.obj o =>
    let o₁ := match generated with
      | some gid => stampId o gid
      | none => o
    match getStr o₁ (pyStr "_id") with
    | some cid =>
      if pyStrip cid ≠ [] then some (JVal.obj o₁, draws, used)
      else createIdStep o₁ draws used
    | none => createIdStep o₁ draws used
  | _ => some (value, draws, used)

/-- `_build_new_records` over discovered files (relative location plus parsed
content): skip files without an inferable nonempty root; rename and stamp;
infer the record id, add it to the used set, and emit
`(f"!{root}!{rec_id}", encoded value)`.  `none` models an uncaught encode
error or an unending allocator streak. -/
def buildNewRecords : List (RelFile × JVal) → List Str → List Str →
    Option (List (Str × Bytes))
  | [], _, _ => some []
  | (f, value) :: rest, draws, used =>
    match inferRootFromPath f with
    | none => buildNewRecords rest draws used
    | some root =>
      if root = [] then buildNewRecords rest draws used
      else
        (renameStep f.stem draws used).bind (fun r =>
          (stampStep value r.2.1 r.2.2.1 r.2.2.2).bind (fun s =>
            (encodeValue s.1).bind (fun bytes =>
              (buildNewRecords rest s.2.1 (inferId s.1 r.1 :: s.2.2)).bind (fun recs =>
                some (([33] ++ root ++ [33] ++ inferId s.1 r.1, bytes) :: recs)))))

/-- C10: every key emitted for a newly discovered record file has exactly the
form `!root!id`: the root is inferred (nonempty) from the relative path of
one of the input files, and the id is `_infer_id` of some value and stem (the
`_id` field when nonblank, else the `__`-delimited stem suffix, else the
sanitized stem). -/
theorem newRecord_key_shape (files : List (RelFile × JVal)) (draws used : List Str)
    (recs : List (Str × Bytes))
    (h : buildNewRecords files draws used = some recs) :
    ∀ kv ∈ recs, ∃ fv ∈ files, ∃ (root : Str) (v₁ : JVal) (stem₁ : Str),
      inferRootFromPath fv.1 = some root ∧ root ≠ [] ∧
      kv.1 = [33] ++ root ++ [33] ++ inferId v₁ stem₁ := by
  revert h
  induction files generalizing draws used recs with
  | nil =>
    intro h kv hkv
    unfold buildNewRecords at h
    cases h
    simp at hkv
  | cons fv₀ rest ih =>
    intro h kv hkv
    obtain ⟨f, value⟩ := fv₀
    unfold buildNewRecords at h
    split at h
    · obtain ⟨fv, hfv, w⟩ := ih draws used recs h kv hkv
      exact ⟨fv, List.mem_cons_of_mem _ hfv, w⟩
    · rename_i root hroot
      split at h
      · obtain ⟨fv, hfv, w⟩ := ih draws used recs h kv hkv
        exact ⟨fv, List.mem_cons_of_mem _ hfv, w⟩
      · rename_i hrootne
        rcases hr : renameStep f.stem draws used with _ | r
        · rw [hr] at h; simp at h
        · rw [hr] at h
          simp only [Option.some_bind] at h
          rcases hs : stampStep value r.2.1 r.2.2.1 r.2.2.2 with _ | s
          · rw [hs] at h; simp at h
          · rw [hs] at h
            simp only [Option.some_bind] at h
            rcases he : encodeValue s.1 with _ | bytes
            · rw [he] at h; simp at h
            · rw [he] at h
              simp only [Option.some_bind] at h
              rcases hb : buildNewRecords rest s.2.1 (inferId s.1 r.1 :: s.2.2)
                  with _ | recs₀
              · rw [hb] at h; simp at h
              · rw [hb] at h
                simp only [Option.some_bind] at h
                cases h
                rcases List.mem_cons.mp hkv with rfl | hkv₀
                · exact ⟨(f, value), List.mem_cons_self _ _,
                    root, s.1, r.1, hroot, hrootne, rfl⟩
                · obtain ⟨fv, hfv, w⟩ :=
                    ih s.2.1 (inferId s.1 r.1 :: s.2.2) recs₀ hb kv hkv₀
                  exact ⟨fv, List.mem_cons_of_mem _ hfv, w⟩

/-- C10 witness: one new file `items/Sword.json` containing `{}` is renamed
with the generated id `id1`, stamped, and keyed `!items!id1`. -/
theorem newRecord_key_shape_witness :
    ∃ fv ∈ ([(⟨[pyStr "items"], pyStr "Sword"⟩, JVal.obj [])] :
        List (RelFile × JVal)),
      ∃ (root : Str) (v₁ : JVal) (stem₁ : Str),
        inferRootFromPath fv.1 = some root ∧ root ≠ [] ∧
        ((pyStr "!items!id1",
          ([123, 34, 95, 105, 100, 34, 58, 34, 105, 100, 49, 34, 125] : Bytes)) :
          Str × Bytes).1 = [33] ++ root ++ [33] ++ inferId v₁ stem₁ :=
  newRecord_key_shape [(⟨[pyStr "items"], pyStr "Sword"⟩, JVal.obj [])]
    [pyStr "id1"] []
    [(pyStr "!items!id1",
      [123, 34, 95, 105, 100, 34, 58, 34, 105, 100, 49, 34, 125])]
    (by decide)
    (pyStr "!items!id1",
      [123, 34, 95, 105, 100, 34, 58, 34, 105, 100, 49, 34, 125])
    (by decide)
